import Mathlib

/-!
Verification of the svg-2-code format converter (`src/app/page.tsx`).

The converter is a pure string-rewriting layer.  We embed strings as
`List Char` and model the JavaScript string operations used by the source
(`String.prototype.replace` with a global literal pattern, `trim`,
`encodeURIComponent`, regex scans for the XML declaration and the opening
`<svg ...>` tag) as executable Lean functions.
-/

namespace Svg2Code

/-- The closed format enumeration `FormatType` from the source. -/
inductive FormatType where
  | raw | html | js | jsx | tsx | css
deriving DecidableEq, Repr

/-- Test whether `pat` is a prefix of `s` (models a literal match attempt
at the current scan position). -/
def startsW : List Char → List Char → Bool
  | [], _ => true
  | _ :: _, [] => false
  | a :: as, b :: bs => a == b && startsW as bs

/-- Test whether `t` is a suffix of `x`. -/
def endsW (t x : List Char) : Bool :=
  startsW t.reverse x.reverse

/-- Test whether `pat` occurs as a contiguous substring of `s`. -/
def hasSub (pat : List Char) : List Char → Bool
  | [] => startsW pat []
  | c :: cs => startsW pat (c :: cs) || hasSub pat cs

theorem startsW_iff (p s : List Char) : startsW p s = true ↔ ∃ t, s = p ++ t := by
  induction p generalizing s with
  | nil => simp [startsW]
  | cons a as ih =>
    cases s with
    | nil => simp [startsW]
    | cons b bs =>
      simp only [startsW, Bool.and_eq_true, beq_iff_eq]
      constructor
      · rintro ⟨rfl, h⟩
        obtain ⟨t, rfl⟩ := (ih bs).1 h
        exact ⟨t, rfl⟩
      · rintro ⟨t, ht⟩
        injection ht with h1 h2
        exact ⟨h1.symm, (ih bs).2 ⟨t, h2⟩⟩

theorem startsW_refl_append (p t : List Char) : startsW p (p ++ t) = true :=
  (startsW_iff p (p ++ t)).2 ⟨t, rfl⟩

theorem startsW_length_le {p s : List Char} (h : startsW p s = true) :
    p.length ≤ s.length := by
  obtain ⟨t, rfl⟩ := (startsW_iff p s).1 h
  simp

theorem endsW_iff (t x : List Char) : endsW t x = true ↔ ∃ u, x = u ++ t := by
  unfold endsW
  rw [startsW_iff]
  constructor
  · rintro ⟨u, hu⟩
    refine ⟨u.reverse, ?_⟩
    have := congrArg List.reverse hu
    simpa using this
  · rintro ⟨u, rfl⟩
    exact ⟨u.reverse, by simp⟩

theorem hasSub_iff (p s : List Char) : hasSub p s = true ↔ ∃ u v, s = u ++ p ++ v := by
  induction s with
  | nil =>
    simp only [hasSub, startsW_iff]
    constructor
    · rintro ⟨t, ht⟩
      exact ⟨[], t, by simpa using ht⟩
    · rintro ⟨u, v, h⟩
      rcases List.append_eq_nil.1 (List.append_eq_nil.1 h.symm).1 with ⟨_, h2⟩
      exact ⟨v, by simp_all⟩
  | cons c cs ih =>
    simp only [hasSub, Bool.or_eq_true, startsW_iff, ih]
    constructor
    · rintro (⟨t, ht⟩ | ⟨u, v, rfl⟩)
      · exact ⟨[], t, by simpa using ht⟩
      · exact ⟨c :: u, v, rfl⟩
    · rintro ⟨u, v, huv⟩
      cases u with
      | nil => exact Or.inl ⟨v, by simpa using huv⟩
      | cons d ds =>
        injection huv with h1 h2
        exact Or.inr ⟨ds, v, h2⟩

theorem hasSub_of_startsW {p s : List Char} (h : startsW p s = true) :
    hasSub p s = true := by
  obtain ⟨t, rfl⟩ := (startsW_iff p s).1 h
  exact (hasSub_iff p (p ++ t)).2 ⟨[], t, by simp⟩

theorem hasSub_cons {p : List Char} {c : Char} {cs : List Char}
    (h : hasSub p cs = true) : hasSub p (c :: cs) = true := by
  simp [hasSub, h]

theorem hasSub_append_left {p x y : List Char} (h : hasSub p x = true) :
    hasSub p (x ++ y) = true := by
  obtain ⟨u, v, rfl⟩ := (hasSub_iff p x).1 h
  exact (hasSub_iff p _).2 ⟨u, v ++ y, by simp⟩

theorem hasSub_append_right {p : List Char} (x : List Char) {y : List Char}
    (h : hasSub p y = true) : hasSub p (x ++ y) = true := by
  obtain ⟨u, v, rfl⟩ := (hasSub_iff p y).1 h
  exact (hasSub_iff p _).2 ⟨x ++ u, v, by simp⟩

theorem hasSub_of_middle {p x t v : List Char} (h : hasSub p t = true) :
    hasSub p (x ++ t ++ v) = true :=
  hasSub_append_left (hasSub_append_right x h)

theorem hasSub_drop {p s : List Char} {n : Nat}
    (h : hasSub p (s.drop n) = true) : hasSub p s = true := by
  have : s = s.take n ++ s.drop n := (List.take_append_drop n s).symm
  rw [this]
  exact hasSub_append_right _ h

/-- A prefix of an appended list either fits in the first part or crosses
over with the whole first part consumed. -/
theorem startsW_append_split {k x y : List Char} (h : startsW k (x ++ y) = true) :
    (startsW k x = true ∧ k.length ≤ x.length) ∨
      ∃ k2, k = x ++ k2 ∧ startsW k2 y = true := by
  induction x generalizing k with
  | nil => exact Or.inr ⟨k, rfl, by simpa using h⟩
  | cons c xs ih =>
    cases k with
    | nil => exact Or.inl ⟨rfl, by simp⟩
    | cons a as =>
      simp only [List.cons_append, startsW, Bool.and_eq_true, beq_iff_eq] at h
      obtain ⟨rfl, h2⟩ := h
      rcases ih h2 with ⟨h3, h4⟩ | ⟨k2, rfl, h3⟩
      · exact Or.inl ⟨by simp [startsW, h3], by simpa using h4⟩
      · exact Or.inr ⟨k2, rfl, h3⟩

/-- Occurrence-in-append case split: an occurrence lies in the left part,
in the right part, or spans the boundary. -/
theorem hasSub_append_cases {K x y : List Char} (h : hasSub K (x ++ y) = true) :
    hasSub K x = true ∨ hasSub K y = true ∨
      ∃ k1 k2, K = k1 ++ k2 ∧ k1 ≠ [] ∧ k2 ≠ [] ∧
        endsW k1 x = true ∧ startsW k2 y = true := by
  induction x with
  | nil => exact Or.inr (Or.inl (by simpa using h))
  | cons c xs ih =>
    rw [List.cons_append] at h
    simp only [hasSub, Bool.or_eq_true] at h
    rcases h with h | h
    · -- K is a prefix of c :: (xs ++ y)
      rcases startsW_append_split (x := c :: xs) (y := y) h with ⟨h1, _⟩ | ⟨k2, rfl, h2⟩
      · exact Or.inl (hasSub_of_startsW h1)
      · by_cases hk2 : k2 = []
        · subst hk2
          exact Or.inl (hasSub_of_startsW
            (by simpa using startsW_refl_append (c :: xs) []))
        · exact Or.inr (Or.inr ⟨c :: xs, k2, rfl, by simp, hk2,
            (endsW_iff _ _).2 ⟨[], by simp⟩, h2⟩)
    · rcases ih h with h1 | h1 | ⟨k1, k2, rfl, hk1, hk2, he, hs⟩
      · exact Or.inl (hasSub_cons h1)
      · exact Or.inr (Or.inl h1)
      · refine Or.inr (Or.inr ⟨k1, k2, rfl, hk1, hk2, ?_, hs⟩)
        obtain ⟨u, rfl⟩ := (endsW_iff k1 xs).1 he
        exact (endsW_iff _ _).2 ⟨c :: u, rfl⟩

/-! ## `String.prototype.replace` with a global literal pattern

JavaScript scans the original string left to right; at a match it emits the
replacement and resumes right after the matched segment (replacement text is
never rescanned). -/

/-- Scanner for `replaceAll`, fueled so that it reduces in the kernel; the
fuel drops by one per step while the string drops by at least one character,
so `fuel = s.length` always suffices. -/
def replaceAllGo (pat rep : List Char) : Nat → List Char → List Char
  | _, [] => []
  | 0, s => s
  | fuel + 1, c :: cs =>
    if startsW pat (c :: cs) then
      rep ++ replaceAllGo pat rep fuel (cs.drop (pat.length - 1))
    else
      c :: replaceAllGo pat rep fuel cs

/-- Replace every (leftmost, non-overlapping) occurrence of `pat` by `rep`.
The source only ever calls this with a non-empty literal pattern. -/
def replaceAll (pat rep : List Char) (s : List Char) : List Char :=
  if pat = [] then s else replaceAllGo pat rep s.length s

theorem replaceAllGo_fuel (pat rep : List Char) :
    ∀ fuel s, s.length ≤ fuel →
      replaceAllGo pat rep fuel s = replaceAllGo pat rep s.length s := by
  intro fuel
  induction fuel using Nat.strong_induction_on with
  | _ fuel ih =>
    intro s hs
    cases s with
    | nil => cases fuel <;> rfl
    | cons c cs =>
      cases fuel with
      | zero => simp at hs
      | succ f =>
        simp only [List.length_cons] at hs
        have hcs : cs.length ≤ f := by omega
        simp only [replaceAllGo, List.length_cons]
        by_cases hm : startsW pat (c :: cs) = true
        · have hd : (cs.drop (pat.length - 1)).length ≤ cs.length := by
            simp only [List.length_drop]
            omega
          simp only [hm, if_true]
          rw [ih f (by omega) _ (le_trans hd hcs), ih cs.length (by omega) _ hd]
        · simp only [Bool.not_eq_true] at hm
          simp only [hm, Bool.false_eq_true, if_false]
          rw [ih f (by omega) _ hcs, ih cs.length (by omega) _ (Nat.le_refl _)]

theorem replaceAll_nil (pat rep : List Char) : replaceAll pat rep [] = [] := by
  unfold replaceAll
  split <;> rfl

theorem replaceAll_pos {pat : List Char} (rep : List Char) {c : Char} {cs : List Char}
    (hp : pat ≠ []) (hm : startsW pat (c :: cs) = true) :
    replaceAll pat rep (c :: cs) =
      rep ++ replaceAll pat rep (cs.drop (pat.length - 1)) := by
  unfold replaceAll
  simp only [hp, if_false, List.length_cons, replaceAllGo, hm, if_true]
  rw [replaceAllGo_fuel pat rep cs.length _ (by simp [List.length_drop])]

theorem replaceAll_neg {pat : List Char} (rep : List Char) {c : Char} {cs : List Char}
    (hm : startsW pat (c :: cs) = false) :
    replaceAll pat rep (c :: cs) = c :: replaceAll pat rep cs := by
  have hp : pat ≠ [] := by
    intro h
    subst h
    simp [startsW] at hm
  unfold replaceAll
  simp only [hp, if_false, List.length_cons, replaceAllGo, hm, Bool.false_eq_true]

/-! ## The XML-declaration scrub: `replace(/<\?xml[^?]*\?>/g, "")`

A match at a position requires the literal `<?xml`, then the maximal run of
non-`?` characters, then the two characters `?>`.  (No shorter run can match,
since every shorter candidate ends at a non-`?` character.) -/

/-- Match attempt of `<\?xml[^?]*\?>` at the start of `s`; returns the
remainder after the match. -/
def xmlDeclSplit (s : List Char) : Option (List Char) :=
  if startsW ("<?xml".toList) s then
    match (s.drop 5).dropWhile (fun c => c != '?') with
    | '?' :: '>' :: tail => some tail
    | _ => none
  else none

theorem xmlDeclSplit_length {s t : List Char} (h : xmlDeclSplit s = some t) :
    t.length + 2 ≤ s.length := by
  unfold xmlDeclSplit at h
  split at h
  · rename_i hs
    have h5 : 5 ≤ s.length := startsW_length_le hs
    have hdw : ((s.drop 5).dropWhile (fun c => c != '?')).length ≤ (s.drop 5).length :=
      List.Sublist.length_le ((s.drop 5).dropWhile_sublist _)
    split at h
    · rename_i heq
      injection h with h
      subst h
      rw [heq] at hdw
      simp only [List.length_cons, List.length_drop] at hdw ⊢
      omega
    · exact absurd h (by simp)
  · exact absurd h (by simp)

/-- Fueled scanner for the scrub pass (`fuel = s.length` always suffices,
since a match consumes at least seven characters). -/
def removeXmlGo : Nat → List Char → List Char
  | _, [] => []
  | 0, s => s
  | fuel + 1, c :: cs =>
    match xmlDeclSplit (c :: cs) with
    | some t => removeXmlGo fuel t
    | none => c :: removeXmlGo fuel cs

/-- The full scrub pass: scan left to right, deleting every match and
resuming after it; on a failed attempt, advance one character. -/
def removeXmlDecl (s : List Char) : List Char :=
  removeXmlGo s.length s

theorem removeXmlGo_fuel :
    ∀ fuel s, s.length ≤ fuel → removeXmlGo fuel s = removeXmlGo s.length s := by
  intro fuel
  induction fuel using Nat.strong_induction_on with
  | _ fuel ih =>
    intro s hs
    cases s with
    | nil => cases fuel <;> rfl
    | cons c cs =>
      cases fuel with
      | zero => simp at hs
      | succ f =>
        simp only [List.length_cons] at hs
        have hcs : cs.length ≤ f := by omega
        cases hx : xmlDeclSplit (c :: cs) with
        | some t =>
          have ht : t.length + 2 ≤ cs.length + 1 := by
            simpa using xmlDeclSplit_length hx
          simp only [removeXmlGo, List.length_cons, hx]
          rw [ih f (by omega) t (by omega), ih cs.length (by omega) t (by omega)]
        | none =>
          simp only [removeXmlGo, List.length_cons, hx]
          rw [ih f (by omega) cs hcs, ih cs.length (by omega) cs (Nat.le_refl _)]

theorem removeXml_nil : removeXmlDecl [] = [] := rfl

theorem removeXml_pos {c : Char} {cs t : List Char}
    (h : xmlDeclSplit (c :: cs) = some t) :
    removeXmlDecl (c :: cs) = removeXmlDecl t := by
  have ht : t.length + 2 ≤ cs.length + 1 := by simpa using xmlDeclSplit_length h
  unfold removeXmlDecl
  simp only [List.length_cons, removeXmlGo, h]
  exact removeXmlGo_fuel cs.length t (by omega)

theorem removeXml_neg {c : Char} {cs : List Char}
    (h : xmlDeclSplit (c :: cs) = none) :
    removeXmlDecl (c :: cs) = c :: removeXmlDecl cs := by
  unfold removeXmlDecl
  simp only [List.length_cons, removeXmlGo, h]

/-! ## The attribute-rename table and its global substitution passes -/

/-- The `attributeMap` table, in source (insertion) order. -/
def attributeMap : List (List Char × List Char) :=
  [ ("stroke-width".toList, "strokeWidth".toList)
  , ("stroke-linecap".toList, "strokeLinecap".toList)
  , ("stroke-linejoin".toList, "strokeLinejoin".toList)
  , ("stroke-miterlimit".toList, "strokeMiterlimit".toList)
  , ("stroke-dasharray".toList, "strokeDasharray".toList)
  , ("stroke-dashoffset".toList, "strokeDashoffset".toList)
  , ("stroke-opacity".toList, "strokeOpacity".toList)
  , ("fill-opacity".toList, "fillOpacity".toList)
  , ("fill-rule".toList, "fillRule".toList)
  , ("clip-path".toList, "clipPath".toList)
  , ("clip-rule".toList, "clipRule".toList)
  , ("font-family".toList, "fontFamily".toList)
  , ("font-size".toList, "fontSize".toList)
  , ("font-weight".toList, "fontWeight".toList)
  , ("text-anchor".toList, "textAnchor".toList)
  , ("stop-color".toList, "stopColor".toList)
  , ("stop-opacity".toList, "stopOpacity".toList)
  , ("marker-end".toList, "markerEnd".toList)
  , ("marker-start".toList, "markerStart".toList)
  , ("marker-mid".toList, "markerMid".toList) ]

/-- Sequentially apply each rename pass (`Object.entries(...).forEach`). -/
def applyMap : List (List Char × List Char) → List Char → List Char
  | [], s => s
  | e :: rest, s => applyMap rest (replaceAll e.1 e.2 s)

/-! ## The opening-tag splice: `replace(/<svg([^>]*)>/, ...)` (first match only) -/

def svgLit : List Char := ['<', 's', 'v', 'g']

/-- The replacement text up to (and excluding) the captured attribute text:
`<svg {...props} fill="currentColor" role="img"`. -/
def spliceHead : List Char :=
  "<svg \x7b...props\x7d fill=\"currentColor\" role=\"img\"".toList

/-- Replace the first `<svg ...>` opening tag (attribute text free of `>`)
by the spliced tag; everything after the match is emitted verbatim. -/
def svgTagSplice (s : List Char) : List Char :=
  match s with
  | [] => []
  | c :: cs =>
    if startsW svgLit (c :: cs) then
      match ((c :: cs).drop 4).dropWhile (fun x => x != '>') with
      | '>' :: tail =>
          spliceHead ++ ((c :: cs).drop 4).takeWhile (fun x => x != '>') ++ '>' :: tail
      | _ => c :: svgTagSplice cs
    else c :: svgTagSplice cs

/-! ## `String.prototype.trim` -/

/-- The JavaScript WhiteSpace ∪ LineTerminator set used by `trim`. -/
def isJsSpace (c : Char) : Bool :=
  c == ' ' || c == '\t' || c == '\n' || c == '\r' ||
  c.toNat == 11 || c.toNat == 12 || c.toNat == 0xA0 || c.toNat == 0xFEFF ||
  c.toNat == 0x1680 || (0x2000 ≤ c.toNat && c.toNat ≤ 0x200A) ||
  c.toNat == 0x2028 || c.toNat == 0x2029 || c.toNat == 0x202F ||
  c.toNat == 0x205F || c.toNat == 0x3000

def jsTrim (s : List Char) : List Char :=
  ((s.dropWhile isJsSpace).reverse.dropWhile isJsSpace).reverse

/-- `convertToReactProps` from the source: scrub the XML declaration, run the
rename passes, splice the first `<svg ...>` tag, then trim. -/
def convertToReactProps (svgString : List Char) : List Char :=
  jsTrim (svgTagSplice (applyMap attributeMap (removeXmlDecl svgString)))

/-! ## `encodeURIComponent` and the css payload -/

def apos : Char := Char.ofNat 39

/-- Characters `encodeURIComponent` leaves unescaped:
`A-Z a-z 0-9 - _ . ! ~ * ' ( )` (the alphanumerics written as their ASCII
code ranges). -/
def isUriUnreserved (c : Char) : Bool :=
  (65 ≤ c.toNat && c.toNat ≤ 90) || (97 ≤ c.toNat && c.toNat ≤ 122) ||
  (48 ≤ c.toNat && c.toNat ≤ 57) ||
  c == '-' || c == '_' || c == '.' || c == '!' ||
  c == '~' || c == '*' || c == apos || c == '(' || c == ')'

/-- Uppercase hexadecimal digit, as produced by `encodeURIComponent`. -/
def hexDigit (n : Nat) : Char :=
  if n < 10 then Char.ofNat (48 + n) else Char.ofNat (55 + n)

/-- UTF-8 encoding of a scalar value. -/
def utf8Bytes (c : Char) : List Nat :=
  let n := c.toNat
  if n < 0x80 then [n]
  else if n < 0x800 then [0xC0 + n / 64, 0x80 + n % 64]
  else if n < 0x10000 then
    [0xE0 + n / 4096, 0x80 + (n / 64) % 64, 0x80 + n % 64]
  else
    [0xF0 + n / 262144, 0x80 + (n / 4096) % 64, 0x80 + (n / 64) % 64, 0x80 + n % 64]

def pctTriple (b : Nat) : List Char := ['%', hexDigit (b / 16), hexDigit (b % 16)]

def pctTriples : List Nat → List Char
  | [] => []
  | b :: bs => pctTriple b ++ pctTriples bs

/-- One character of `encodeURIComponent` output. -/
def encChar (c : Char) : List Char :=
  if isUriUnreserved c then [c] else pctTriples (utf8Bytes c)

/-- `encodeURIComponent` (percent-encodes the UTF-8 bytes of every character
outside the unreserved set). -/
def encodeUC : List Char → List Char
  | [] => []
  | c :: cs => encChar c ++ encodeUC cs

/-- The css data-URI payload: `encodeURIComponent(svgContent)` followed by the
two global replaces `' → %27` and `" → %22` from the source. -/
def encodedSvg (s : List Char) : List Char :=
  replaceAll ['"'] ("%22".toList) (replaceAll [apos] ("%27".toList) (encodeUC s))

/-! ## The format templates and `getTransformedCode` -/

def htmlPre : List Char :=
  ("<!DOCTYPE html>\n<html lang=\"en\">\n<head>\n  <meta charset=\"UTF-8\">\n  <meta name=\"viewport\" content=\"width=device-width, initial-scale=1.0\">\n  <title>SVG Icon</title>\n</head>\n<body>\n  <div class=\"icon-container\">\n    ").toList

def htmlPost : List Char := ("\n  </div>\n</body>\n</html>").toList

def jsPre : List Char := ("const IconSvg = `").toList

def jsPost : List Char := ("`;\n\nexport default IconSvg;").toList

def jsxPre : List Char := ("const Icon = (props) => (\n  ").toList

def jsxPost : List Char := ("\n);\n\nexport default Icon;").toList

def tsxPre : List Char :=
  ("import \x7b SVGProps \x7d from \x27react\x27;\n\nconst Icon = (props: SVGProps<SVGSVGElement>) => (\n  ").toList

def tsxPost : List Char := ("\n);\n\nexport default Icon;").toList

def cssPre : List Char :=
  (".icon-bg \x7b\n  background-image: url(\"data:image/svg+xml;charset=utf8,").toList

def cssPost : List Char :=
  ("\");\n  background-size: contain;\n  background-repeat: no-repeat;\n  background-position: center;\n  width: 24px;\n  height: 24px;\n\x7d").toList

/-- `getTransformedCode` from the source.  `!svgContent` is true exactly for
the empty string, so every format returns `""` on empty content. -/
def getTransformedCode (svgContent : List Char) (fmt : FormatType) : List Char :=
  if svgContent = [] then []
  else
    match fmt with
    | .raw => svgContent
    | .html => htmlPre ++ svgContent ++ htmlPost
    | .js => jsPre ++ svgContent ++ jsPost
    | .jsx => jsxPre ++ convertToReactProps svgContent ++ jsxPost
    | .tsx => tsxPre ++ convertToReactProps svgContent ++ tsxPost
    | .css => cssPre ++ encodedSvg svgContent ++ cssPost

/-! ## Upload boundary (`handleFileUpload`) -/

/-- The UI state touched by `handleFileUpload`. -/
structure AppState where
  svgContent : List Char
  selectedFormat : FormatType
  errorMessage : List Char
deriving DecidableEq, Repr

/-- An uploaded file: its declared MIME type and its text content. -/
structure UploadedFile where
  fileType : List Char
  content : List Char
deriving DecidableEq, Repr

def mimeSvg : List Char := ("image/svg+xml").toList

def invalidTypeMsg : List Char :=
  ("Invalid file type. Please upload an SVG file.").toList

/-- `handleFileUpload`: clear the error; reject non-`image/svg+xml` files
with a message (leaving content and format untouched); otherwise load the
file text and reset the format to `raw` (the reader callback sequentialized). -/
def handleFileUpload (st : AppState) (f : UploadedFile) : AppState :=
  if f.fileType ≠ mimeSvg then
    { st with errorMessage := invalidTypeMsg }
  else
    { svgContent := f.content, selectedFormat := .raw, errorMessage := [] }

/-! ## Further generic lemmas -/

theorem endsW_append_right {t y : List Char} (x : List Char)
    (h : endsW t y = true) : endsW t (x ++ y) = true := by
  obtain ⟨u, rfl⟩ := (endsW_iff t y).1 h
  exact (endsW_iff _ _).2 ⟨x ++ u, by simp⟩

theorem hasSub_false_tail {p : List Char} {c : Char} {cs : List Char}
    (h : hasSub p (c :: cs) = false) : hasSub p cs = false := by
  by_contra hh
  simp only [Bool.not_eq_false] at hh
  rw [hasSub_cons hh] at h
  exact absurd h (by simp)

theorem startsW_false_of_hasSub_false {p s : List Char}
    (h : hasSub p s = false) : startsW p s = false := by
  by_contra hh
  simp only [Bool.not_eq_false] at hh
  rw [hasSub_of_startsW hh] at h
  exact absurd h (by simp)

theorem takeWhile_all_append {p : Char → Bool} {B : List Char} (y : List Char)
    (hB : ∀ c ∈ B, p c = true) :
    (B ++ y).takeWhile p = B ++ y.takeWhile p := by
  induction B with
  | nil => simp
  | cons b bs ih =>
    have hb : p b = true := hB b (by simp)
    simp only [List.cons_append, List.takeWhile_cons, hb, if_true]
    rw [ih (fun c hc => hB c (by simp [hc]))]

theorem dropWhile_all_append {p : Char → Bool} {B : List Char} (y : List Char)
    (hB : ∀ c ∈ B, p c = true) :
    (B ++ y).dropWhile p = y.dropWhile p := by
  induction B with
  | nil => simp
  | cons b bs ih =>
    have hb : p b = true := hB b (by simp)
    simp only [List.cons_append, List.dropWhile_cons, hb, if_true]
    exact ih (fun c hc => hB c (by simp [hc]))

/-! ## Claim theorems (part 1) -/

/-- C1 counterexample: with empty content, the `html` and `css` formats do
NOT render their wrapper boilerplate — the early `if (!svgContent) return ""`
makes them return the empty string, although the wrappers are non-empty. -/
theorem C1_counterexample :
    getTransformedCode [] FormatType.html = [] ∧
    getTransformedCode [] FormatType.css = [] ∧
    htmlPre ++ htmlPost ≠ [] ∧ cssPre ++ cssPost ≠ [] :=
  ⟨rfl, rfl, by decide, by decide⟩

/-- C1 (amended): for empty SVG content every format — `html` and `css`
included — yields the empty string; no format renders wrapper boilerplate. -/
theorem C1_empty_all_formats (fmt : FormatType) :
    getTransformedCode [] fmt = [] := rfl

/-- C2: when no SVG content is loaded (content is the empty string) the
converter returns the empty string for every one of the six formats (and, as
a total Lean function, cannot raise an error). -/
theorem C2_empty_input_all_formats_empty (fmt : FormatType) :
    getTransformedCode [] fmt = [] := rfl

/-- C3: the `raw` format is the identity transform: for every string `s`,
converting `s` with `raw` returns `s` unchanged (for empty `s`, the early
empty-content guard returns `""`, which is again `s`). -/
theorem C3_raw_identity (s : List Char) :
    getTransformedCode s FormatType.raw = s := by
  unfold getTransformedCode
  by_cases h : s = []
  · simp [h]
  · simp [h]

/-- C4: on input `<svg stroke-width="2"><path d="M0 0"/></svg>`, the `jsx`
output embeds exactly the opening tag
`<svg {...props} fill="currentColor" role="img" strokeWidth="2">` followed by
the untouched remainder, inside the component template. -/
theorem C4_jsx_opening_tag :
    getTransformedCode
        (("<svg stroke-width=\"2\"><path d=\"M0 0\"/></svg>").toList)
        FormatType.jsx =
      jsxPre ++
        ((("<svg \x7b...props\x7d fill=\"currentColor\" role=\"img\" strokeWidth=\"2\">").toList)
          ++ ("<path d=\"M0 0\"/></svg>").toList) ++ jsxPost := by
  rfl

/-- C6 counterexample: for the empty input the `jsx` output is the empty
string, which does not end with `export default Icon;`. -/
theorem C6_counterexample :
    getTransformedCode [] FormatType.jsx = [] ∧
    endsW (("export default Icon;").toList) (getTransformedCode [] FormatType.jsx) = false :=
  ⟨rfl, by decide⟩

/-- C6 (amended): for every NON-EMPTY input string the `jsx` output ends
with the exact text `export default Icon;`. -/
theorem C6_jsx_ends_with_export (s : List Char) (hs : s ≠ []) :
    endsW (("export default Icon;").toList) (getTransformedCode s FormatType.jsx) = true := by
  unfold getTransformedCode
  simp only [hs, if_false]
  exact endsW_append_right _ (by decide)

theorem C6_jsx_ends_with_export_witness :
    endsW (("export default Icon;").toList)
      (getTransformedCode (("<svg/>").toList) FormatType.jsx) = true :=
  C6_jsx_ends_with_export (("<svg/>").toList) (by decide)

/-- C8: a file whose declared MIME type is not `image/svg+xml` is rejected:
the user-visible error message is set, and both the previously loaded SVG
content and the previously selected format are left unchanged. -/
theorem C8_invalid_file_type (st : AppState) (f : UploadedFile)
    (h : f.fileType ≠ mimeSvg) :
    (handleFileUpload st f).errorMessage = invalidTypeMsg ∧
    (handleFileUpload st f).svgContent = st.svgContent ∧
    (handleFileUpload st f).selectedFormat = st.selectedFormat := by
  unfold handleFileUpload
  simp [h]

theorem C8_invalid_file_type_witness :
    (handleFileUpload ⟨("<svg/>").toList, FormatType.css, []⟩
        ⟨("text/plain").toList, ("x").toList⟩).errorMessage = invalidTypeMsg ∧
    (handleFileUpload ⟨("<svg/>").toList, FormatType.css, []⟩
        ⟨("text/plain").toList, ("x").toList⟩).svgContent = ("<svg/>").toList ∧
    (handleFileUpload ⟨("<svg/>").toList, FormatType.css, []⟩
        ⟨("text/plain").toList, ("x").toList⟩).selectedFormat = FormatType.css :=
  C8_invalid_file_type _ _ (by decide)

/-! ## C10: the `<svg ...>` splice hits only the first tag -/

theorem dropWhile_head_false {p : Char → Bool} {l : List Char} {d : Char} {t : List Char}
    (h : l.dropWhile p = d :: t) : p d = false := by
  induction l with
  | nil => simp at h
  | cons a as ih =>
    rw [List.dropWhile_cons] at h
    by_cases hp : p a = true
    · rw [if_pos hp] at h
      exact ih h
    · rw [if_neg hp] at h
      injection h with h1 _
      subst h1
      simpa using hp

/-- `<svg` is unbordered, so with no occurrence inside `A` (nonempty), no
occurrence of `<svg` can start inside `A` in `A ++ <svg ++ rest`. -/
theorem startsW_svgLit_shift {A rest : List Char} (hA : hasSub svgLit A = false)
    (hne : A ≠ []) : startsW svgLit (A ++ (svgLit ++ rest)) = false := by
  by_contra hh
  simp only [Bool.not_eq_false] at hh
  rcases startsW_append_split hh with ⟨h1, _⟩ | ⟨k2, hk2, h2⟩
  · rw [hasSub_of_startsW h1] at hA
    exact absurd hA (by simp)
  · cases k2 with
    | nil =>
      rw [List.append_nil] at hk2
      rw [← hk2] at hA
      exact absurd hA (by decide)
    | cons k ks =>
      have h2' : startsW (k :: ks) ('<' :: (['s', 'v', 'g'] ++ rest)) = true := by
        simpa [svgLit] using h2
      simp only [startsW, Bool.and_eq_true, beq_iff_eq] at h2'
      obtain ⟨rfl, -⟩ := h2'
      cases A with
      | nil => exact hne rfl
      | cons a A2 =>
        have hsv : svgLit = a :: (A2 ++ '<' :: ks) := by simpa using hk2
        rw [svgLit] at hsv
        injection hsv with ha htail
        have hmem : ('<' : Char) ∈ A2 ++ '<' :: ks :=
          List.mem_append_right _ (List.mem_cons_self _ _)
        rw [← htail] at hmem
        exact absurd hmem (by decide)

theorem svgTagSplice_first (A B C : List Char) (hA : hasSub svgLit A = false)
    (hB : ∀ c ∈ B, c ≠ '>') :
    svgTagSplice (A ++ svgLit ++ B ++ '>' :: C) =
      A ++ spliceHead ++ B ++ '>' :: C := by
  have hdw : (B ++ '>' :: C).dropWhile (fun x => x != '>') = '>' :: C := by
    rw [dropWhile_all_append _ (fun c hc => by simp [hB c hc])]
    simp [List.dropWhile_cons]
  have htw : (B ++ '>' :: C).takeWhile (fun x => x != '>') = B := by
    rw [takeWhile_all_append _ (fun c hc => by simp [hB c hc])]
    simp [List.takeWhile_cons]
  simp only [List.append_assoc]
  induction A with
  | nil =>
    have hg : startsW svgLit ('<' :: 's' :: 'v' :: 'g' :: (B ++ '>' :: C)) = true :=
      startsW_refl_append svgLit (B ++ '>' :: C)
    show svgTagSplice ('<' :: 's' :: 'v' :: 'g' :: (B ++ '>' :: C)) =
      [] ++ (spliceHead ++ (B ++ '>' :: C))
    unfold svgTagSplice
    simp only [hg, if_true]
    have hdrop : List.drop 4 ('<' :: 's' :: 'v' :: 'g' :: (B ++ '>' :: C)) =
        B ++ '>' :: C := rfl
    simp only [hdrop, hdw, htw, List.nil_append, List.append_assoc]
  | cons a A2 ih =>
    have hg : startsW svgLit ((a :: A2) ++ (svgLit ++ (B ++ '>' :: C))) = false :=
      startsW_svgLit_shift hA (by simp)
    have hg' : startsW svgLit (a :: (A2 ++ (svgLit ++ (B ++ '>' :: C)))) = false := by
      simpa using hg
    show svgTagSplice (a :: (A2 ++ (svgLit ++ (B ++ '>' :: C)))) =
      (a :: A2) ++ (spliceHead ++ (B ++ '>' :: C))
    unfold svgTagSplice
    simp only [hg', Bool.false_eq_true, if_false]
    have h2 := ih (hasSub_false_tail hA)
    rw [h2]
    simp

theorem svgTagSplice_no_tag (s : List Char)
    (h : ∀ A B C : List Char, s ≠ A ++ svgLit ++ B ++ '>' :: C) :
    svgTagSplice s = s := by
  induction s with
  | nil => rfl
  | cons c cs ih =>
    by_cases hg : startsW svgLit (c :: cs) = true
    · obtain ⟨rest, hrest⟩ := (startsW_iff _ _).1 hg
      have hdrop : List.drop 4 (c :: cs) = rest := by
        rw [hrest]
        exact List.drop_left svgLit rest
      cases hd : rest.dropWhile (fun x => x != '>') with
      | cons d tail =>
        have hdf := dropWhile_head_false hd
        have hdeq : d = '>' := by simpa using hdf
        subst hdeq
        refine absurd ?_ (h [] (rest.takeWhile (fun x => x != '>')) tail)
        rw [hrest]
        have hsplit : rest = rest.takeWhile (fun x => x != '>') ++ ('>' :: tail) := by
          conv_lhs => rw [← List.takeWhile_append_dropWhile (p := fun x => x != '>') (l := rest)]
          rw [hd]
        conv_lhs => rw [hsplit]
        simp [List.append_assoc]
      | nil =>
        have hrec : svgTagSplice cs = cs := by
          apply ih
          intro A B C hcs
          exact h (c :: A) B C (by simp [hcs])
        unfold svgTagSplice
        simp only [hg, if_true, hdrop, hd, hrec]
    · have hg' : startsW svgLit (c :: cs) = false := by simpa using hg
      have hrec : svgTagSplice cs = cs := by
        apply ih
        intro A B C hcs
        exact h (c :: A) B C (by simp [hcs])
      unfold svgTagSplice
      simp only [hg', Bool.false_eq_true, if_false, hrec]

/-- Helper: a string with no `<svg` at all admits no opening-tag decomposition. -/
theorem no_tag_of_no_svgLit {s : List Char} (h : hasSub svgLit s = false) :
    ∀ A B C : List Char, s ≠ A ++ svgLit ++ B ++ '>' :: C := by
  intro A B C hs
  have : hasSub svgLit s = true := by
    rw [hs]
    have hm := hasSub_of_middle (p := svgLit) (x := A) (t := svgLit)
      (v := B ++ '>' :: C) (by decide)
    simpa [List.append_assoc] using hm
  rw [this] at h
  exact absurd h (by simp)

/-- C10: in the jsx/tsx transform step, only the first `<svg ...>` opening
tag (attribute text containing no `>`) is spliced; everything after the
match — later `<svg ...>` tags included — is emitted verbatim, and an input
with no such tag is returned unchanged. -/
theorem C10_first_tag_only :
    (∀ A B C : List Char, hasSub svgLit A = false → (∀ c ∈ B, c ≠ '>') →
      svgTagSplice (A ++ svgLit ++ B ++ '>' :: C) =
        A ++ spliceHead ++ B ++ '>' :: C) ∧
    (∀ s : List Char, (∀ A B C : List Char, s ≠ A ++ svgLit ++ B ++ '>' :: C) →
      svgTagSplice s = s) :=
  ⟨fun A B C hA hB => svgTagSplice_first A B C hA hB,
   fun s h => svgTagSplice_no_tag s h⟩

theorem C10_first_tag_only_witness :
    svgTagSplice (("x").toList ++ svgLit ++ (" a=\"1\"").toList ++
        '>' :: ("<q/><svg b>*</svg>").toList) =
      ("x").toList ++ spliceHead ++ (" a=\"1\"").toList ++
        '>' :: ("<q/><svg b>*</svg>").toList ∧
    svgTagSplice (("<p>hello</p>").toList) = ("<p>hello</p>").toList :=
  ⟨C10_first_tag_only.1 _ _ _ (by decide) (by decide),
   C10_first_tag_only.2 _ (no_tag_of_no_svgLit (by decide))⟩

/-! ## C7: percent-decoding the css data-URI payload

The decoder is the mathematical inverse named by the spec (the repository
ships no decoder): percent-unescape to a byte stream, then UTF-8 decode. -/

def hexVal (c : Char) : Option Nat :=
  if 48 ≤ c.toNat ∧ c.toNat ≤ 57 then some (c.toNat - 48)
  else if 65 ≤ c.toNat ∧ c.toNat ≤ 70 then some (c.toNat - 55)
  else if 97 ≤ c.toNat ∧ c.toNat ≤ 102 then some (c.toNat - 87)
  else none

/-- Percent-unescape one step: `%XY` becomes the byte `0xXY`; any other
character stands for its own code point. -/
def pctOne : List Char → Option (Nat × List Char)
  | [] => none
  | c :: rest =>
    if c = '%' then
      match rest with
      | h1 :: h2 :: rest2 =>
        match hexVal h1, hexVal h2 with
        | some a, some b => some (16 * a + b, rest2)
        | _, _ => none
      | _ => none
    else some (c.toNat, rest)

/-- Fueled percent-unescape loop (`fuel = s.length` always suffices). -/
def pctGo : Nat → List Char → Option (List Nat)
  | _, [] => some []
  | 0, _ :: _ => none
  | fuel + 1, c :: rest =>
    match pctOne (c :: rest) with
    | some (b, rest2) => (pctGo fuel rest2).map (fun l => b :: l)
    | none => none

/-- Percent-unescape a payload into its byte stream. -/
def pctBytes (s : List Char) : Option (List Nat) :=
  pctGo s.length s

/-- Decode one UTF-8 code point from the front of a byte stream (rejecting
truncated sequences, stray continuation bytes, overlong forms, surrogates and
out-of-range values); returns the character and the remaining bytes. -/
def utf8DecodeOne : List Nat → Option (Char × List Nat)
  | [] => none
  | b :: bs =>
    if b < 0x80 then some (Char.ofNat b, bs)
    else if b < 0xC0 then none
    else if b < 0xE0 then
      match bs with
      | b2 :: bs2 =>
        if 0x80 ≤ b2 ∧ b2 < 0xC0 then
          if 0x80 ≤ (b - 0xC0) * 64 + (b2 - 0x80) then
            some (Char.ofNat ((b - 0xC0) * 64 + (b2 - 0x80)), bs2)
          else none
        else none
      | [] => none
    else if b < 0xF0 then
      match bs with
      | b2 :: b3 :: bs3 =>
        if (0x80 ≤ b2 ∧ b2 < 0xC0) ∧ (0x80 ≤ b3 ∧ b3 < 0xC0) then
          if 0x800 ≤ (b - 0xE0) * 4096 + (b2 - 0x80) * 64 + (b3 - 0x80) ∧
              ((b - 0xE0) * 4096 + (b2 - 0x80) * 64 + (b3 - 0x80) < 0xD800 ∨
                0xDFFF < (b - 0xE0) * 4096 + (b2 - 0x80) * 64 + (b3 - 0x80)) then
            some (Char.ofNat ((b - 0xE0) * 4096 + (b2 - 0x80) * 64 + (b3 - 0x80)), bs3)
          else none
        else none
      | _ => none
    else if b < 0xF8 then
      match bs with
      | b2 :: b3 :: b4 :: bs4 =>
        if (0x80 ≤ b2 ∧ b2 < 0xC0) ∧ (0x80 ≤ b3 ∧ b3 < 0xC0) ∧
            (0x80 ≤ b4 ∧ b4 < 0xC0) then
          if 0x10000 ≤ (b - 0xF0) * 262144 + (b2 - 0x80) * 4096 +
                (b3 - 0x80) * 64 + (b4 - 0x80) ∧
              (b - 0xF0) * 262144 + (b2 - 0x80) * 4096 +
                (b3 - 0x80) * 64 + (b4 - 0x80) < 0x110000 then
            some (Char.ofNat ((b - 0xF0) * 262144 + (b2 - 0x80) * 4096 +
              (b3 - 0x80) * 64 + (b4 - 0x80)), bs4)
          else none
        else none
      | _ => none
    else none

theorem utf8DecodeOne_length : ∀ {bs c rest},
    utf8DecodeOne bs = some (c, rest) → rest.length < bs.length := by
  intro bs c rest h
  unfold utf8DecodeOne at h
  repeat' split at h
  all_goals injection h
  all_goals rename_i h
  all_goals injection h with h1 h2
  all_goals subst h2
  all_goals simp only [List.length_cons]
  all_goals omega

/-- Fueled UTF-8 decoding loop (`fuel = bs.length` always suffices). -/
def utf8DecodeGo : Nat → List Nat → Option (List Char)
  | _, [] => some []
  | 0, _ :: _ => none
  | fuel + 1, b :: bs =>
    match utf8DecodeOne (b :: bs) with
    | some (c, rest) => (utf8DecodeGo fuel rest).map (fun l => c :: l)
    | none => none

/-- UTF-8 decoding of a whole byte stream. -/
def utf8Decode (bs : List Nat) : Option (List Char) :=
  utf8DecodeGo bs.length bs

/-- Percent-decoding of a data-URI payload, as named by the spec. -/
def percentDecode (s : List Char) : Option (List Char) :=
  (pctBytes s).bind utf8Decode

/-- The UTF-8 byte stream of a whole string. -/
def utf8Seq : List Char → List Nat
  | [] => []
  | c :: cs => utf8Bytes c ++ utf8Seq cs

/-- The net effect of `encodeURIComponent` followed by the `'`/`"` replaces:
one character of payload. -/
def cssEnc (c : Char) : List Char :=
  if isUriUnreserved c && c != apos then [c] else pctTriples (utf8Bytes c)

def cssEncAll : List Char → List Char
  | [] => []
  | c :: cs => cssEnc c ++ cssEncAll cs

theorem char_toNat_facts (c : Char) :
    c.toNat < 1114112 ∧ (c.toNat < 55296 ∨ 57343 < c.toNat) := by
  have h := c.valid
  simp [UInt32.isValidChar, Nat.isValidChar, Char.toNat] at h ⊢
  omega

theorem utf8Bytes_ne_nil (c : Char) : utf8Bytes c ≠ [] := by
  unfold utf8Bytes
  by_cases h1 : c.toNat < 0x80
  · simp [h1]
  · by_cases h2 : c.toNat < 0x800
    · simp [h1, h2]
    · by_cases h3 : c.toNat < 0x10000
      · simp [h1, h2, h3]
      · simp [h1, h2, h3]

theorem utf8DecodeGo_fuel :
    ∀ fuel bs, bs.length ≤ fuel → utf8DecodeGo fuel bs = utf8DecodeGo bs.length bs := by
  intro fuel
  induction fuel using Nat.strong_induction_on with
  | _ fuel ih =>
    intro bs hbs
    cases bs with
    | nil => cases fuel <;> rfl
    | cons b bs =>
      cases fuel with
      | zero => simp at hbs
      | succ f =>
        simp only [List.length_cons] at hbs
        cases hx : utf8DecodeOne (b :: bs) with
        | some p =>
          obtain ⟨c, rest⟩ := p
          have hlen : rest.length < bs.length + 1 := utf8DecodeOne_length hx
          simp only [utf8DecodeGo, List.length_cons, hx]
          rw [ih f (by omega) rest (by omega), ih bs.length (by omega) rest (by omega)]
        | none =>
          simp only [utf8DecodeGo, List.length_cons, hx]

theorem utf8Decode_nil : utf8Decode [] = some [] := rfl

theorem utf8Decode_cons {b : Nat} {bs : List Nat} {c : Char} {rest : List Nat}
    (h : utf8DecodeOne (b :: bs) = some (c, rest)) :
    utf8Decode (b :: bs) = (utf8Decode rest).map (fun l => c :: l) := by
  have hlen : rest.length < bs.length + 1 := utf8DecodeOne_length h
  unfold utf8Decode
  simp only [List.length_cons, utf8DecodeGo, h]
  rw [utf8DecodeGo_fuel bs.length rest (by omega)]

theorem utf8DecodeOne_bytes (c : Char) (bs : List Nat) :
    utf8DecodeOne (utf8Bytes c ++ bs) = some (c, bs) := by
  obtain ⟨hlt, hsur⟩ := char_toNat_facts c
  have hofnat : Char.ofNat c.toNat = c := Char.ofNat_toNat c
  unfold utf8Bytes
  by_cases h1 : c.toNat < 0x80
  · simp only [h1, if_true, List.cons_append, List.nil_append]
    unfold utf8DecodeOne
    simp [h1, hofnat]
  · by_cases h2 : c.toNat < 0x800
    · simp only [h1, if_false, h2, if_true, List.cons_append, List.nil_append]
      have e1 : ¬(0xC0 + c.toNat / 64 < 0x80) := by omega
      have e2 : ¬(0xC0 + c.toNat / 64 < 0xC0) := by omega
      have e3 : 0xC0 + c.toNat / 64 < 0xE0 := by omega
      have e4 : 0x80 ≤ 0x80 + c.toNat % 64 ∧ 0x80 + c.toNat % 64 < 0xC0 := by omega
      have e5 : (0xC0 + c.toNat / 64 - 0xC0) * 64 + (0x80 + c.toNat % 64 - 0x80) =
          c.toNat := by omega
      unfold utf8DecodeOne
      simp only [e1, if_false, e2, e3, if_true, e4, e5]
      have e6 : 0x80 ≤ c.toNat := by omega
      simp [e6, hofnat]
    · by_cases h3 : c.toNat < 0x10000
      · simp only [h1, if_false, h2, h3, if_true, List.cons_append, List.nil_append]
        have e1 : ¬(0xE0 + c.toNat / 4096 < 0x80) := by omega
        have e2 : ¬(0xE0 + c.toNat / 4096 < 0xC0) := by omega
        have e3 : ¬(0xE0 + c.toNat / 4096 < 0xE0) := by omega
        have e4 : 0xE0 + c.toNat / 4096 < 0xF0 := by omega
        have e5 : (0x80 ≤ 0x80 + c.toNat / 64 % 64 ∧ 0x80 + c.toNat / 64 % 64 < 0xC0) ∧
            (0x80 ≤ 0x80 + c.toNat % 64 ∧ 0x80 + c.toNat % 64 < 0xC0) := by omega
        have e6 : (0xE0 + c.toNat / 4096 - 0xE0) * 4096 +
            (0x80 + c.toNat / 64 % 64 - 0x80) * 64 + (0x80 + c.toNat % 64 - 0x80) =
            c.toNat := by omega
        unfold utf8DecodeOne
        simp only [e1, if_false, e2, e3, e4, if_true, e5, e6]
        have e7 : 0x800 ≤ c.toNat ∧ (c.toNat < 0xD800 ∨ 0xDFFF < c.toNat) :=
          ⟨by omega, hsur⟩
        simp [e7, hofnat]
      · simp only [h1, if_false, h2, h3, List.cons_append, List.nil_append]
        have e1 : ¬(0xF0 + c.toNat / 262144 < 0x80) := by omega
        have e2 : ¬(0xF0 + c.toNat / 262144 < 0xC0) := by omega
        have e3 : ¬(0xF0 + c.toNat / 262144 < 0xE0) := by omega
        have e4 : ¬(0xF0 + c.toNat / 262144 < 0xF0) := by omega
        have e5 : 0xF0 + c.toNat / 262144 < 0xF8 := by omega
        have e6 : (0x80 ≤ 0x80 + c.toNat / 4096 % 64 ∧ 0x80 + c.toNat / 4096 % 64 < 0xC0) ∧
            (0x80 ≤ 0x80 + c.toNat / 64 % 64 ∧ 0x80 + c.toNat / 64 % 64 < 0xC0) ∧
            (0x80 ≤ 0x80 + c.toNat % 64 ∧ 0x80 + c.toNat % 64 < 0xC0) := by omega
        have e7 : (0xF0 + c.toNat / 262144 - 0xF0) * 262144 +
            (0x80 + c.toNat / 4096 % 64 - 0x80) * 4096 +
            (0x80 + c.toNat / 64 % 64 - 0x80) * 64 + (0x80 + c.toNat % 64 - 0x80) =
            c.toNat := by omega
        unfold utf8DecodeOne
        simp only [e1, if_false, e2, e3, e4, e5, if_true, e6, e7]
        have e8 : 0x10000 ≤ c.toNat ∧ c.toNat < 0x110000 := ⟨by omega, by omega⟩
        simp [e8, hofnat]

theorem utf8Decode_utf8Bytes (c : Char) (bs : List Nat) :
    utf8Decode (utf8Bytes c ++ bs) = (utf8Decode bs).map (fun l => c :: l) := by
  have hone := utf8DecodeOne_bytes c bs
  cases he : utf8Bytes c ++ bs with
  | nil =>
    have : utf8Bytes c = [] := (List.append_eq_nil.1 he).1
    exact absurd this (utf8Bytes_ne_nil c)
  | cons b rest =>
    rw [he] at hone
    exact utf8Decode_cons hone

theorem utf8Decode_utf8Seq (s : List Char) : utf8Decode (utf8Seq s) = some s := by
  induction s with
  | nil => rfl
  | cons c cs ih =>
    show utf8Decode (utf8Bytes c ++ utf8Seq cs) = some (c :: cs)
    rw [utf8Decode_utf8Bytes, ih]
    rfl

/-! ### Stage-1 (percent-unescape) lemmas -/

theorem pctOne_length : ∀ {s : List Char} {b : Nat} {rest : List Char},
    pctOne s = some (b, rest) → rest.length < s.length := by
  intro s b rest h
  unfold pctOne at h
  repeat' split at h
  all_goals injection h
  all_goals rename_i h
  all_goals injection h with h1 h2
  all_goals subst h2
  all_goals simp only [List.length_cons]
  all_goals omega

theorem pctGo_fuel :
    ∀ fuel s, s.length ≤ fuel → pctGo fuel s = pctGo s.length s := by
  intro fuel
  induction fuel using Nat.strong_induction_on with
  | _ fuel ih =>
    intro s hs
    cases s with
    | nil => cases fuel <;> rfl
    | cons c cs =>
      cases fuel with
      | zero => simp at hs
      | succ f =>
        simp only [List.length_cons] at hs
        cases hx : pctOne (c :: cs) with
        | some p =>
          obtain ⟨b, rest⟩ := p
          have hlen : rest.length < cs.length + 1 := pctOne_length hx
          simp only [pctGo, List.length_cons, hx]
          rw [ih f (by omega) rest (by omega), ih cs.length (by omega) rest (by omega)]
        | none =>
          simp only [pctGo, List.length_cons, hx]

theorem pctBytes_cons {c : Char} {cs : List Char} {b : Nat} {rest : List Char}
    (h : pctOne (c :: cs) = some (b, rest)) :
    pctBytes (c :: cs) = (pctBytes rest).map (fun l => b :: l) := by
  have hlen : rest.length < cs.length + 1 := pctOne_length h
  unfold pctBytes
  simp only [List.length_cons, pctGo, h]
  rw [pctGo_fuel cs.length rest (by omega)]

theorem pctOne_plain {c : Char} (rest : List Char) (h : c ≠ '%') :
    pctOne (c :: rest) = some (c.toNat, rest) := by
  unfold pctOne
  simp [h]

theorem hexVal_hexDigit : ∀ n, n < 16 → hexVal (hexDigit n) = some n := by decide

theorem pctOne_triple {b : Nat} (rest : List Char) (hb : b < 256) :
    pctOne (pctTriple b ++ rest) = some (b, rest) := by
  have h1 : hexVal (hexDigit (b / 16)) = some (b / 16) :=
    hexVal_hexDigit _ (by omega)
  have h2 : hexVal (hexDigit (b % 16)) = some (b % 16) :=
    hexVal_hexDigit _ (by omega)
  show pctOne ('%' :: hexDigit (b / 16) :: hexDigit (b % 16) :: rest) = some (b, rest)
  unfold pctOne
  simp only [if_pos rfl, h1, h2, if_true]
  have : 16 * (b / 16) + b % 16 = b := by omega
  rw [this]

theorem utf8Bytes_lt_256 (c : Char) : ∀ b ∈ utf8Bytes c, b < 256 := by
  intro b hb
  obtain ⟨hlt, -⟩ := char_toNat_facts c
  unfold utf8Bytes at hb
  by_cases h1 : c.toNat < 0x80
  · simp [h1] at hb
    omega
  · by_cases h2 : c.toNat < 0x800
    · simp [h1, h2] at hb
      rcases hb with rfl | rfl <;> omega
    · by_cases h3 : c.toNat < 0x10000
      · simp [h1, h2, h3] at hb
        rcases hb with rfl | rfl | rfl <;> omega
      · simp [h1, h2, h3] at hb
        rcases hb with rfl | rfl | rfl | rfl <;> omega

theorem pctBytes_triples (bytes : List Nat) (r : List Char)
    (hb : ∀ b ∈ bytes, b < 256) :
    pctBytes (pctTriples bytes ++ r) = (pctBytes r).map (fun l => bytes ++ l) := by
  induction bytes with
  | nil =>
    show pctBytes r = (pctBytes r).map (fun l => [] ++ l)
    cases pctBytes r <;> simp
  | cons b bs ih =>
    have hb0 : b < 256 := hb b (by simp)
    have hone : pctOne (pctTriple b ++ (pctTriples bs ++ r)) =
        some (b, pctTriples bs ++ r) := pctOne_triple _ hb0
    show pctBytes (pctTriple b ++ (pctTriples bs ++ r)) =
      (pctBytes r).map (fun l => (b :: bs) ++ l)
    have hcons : pctTriple b ++ (pctTriples bs ++ r) =
        '%' :: (hexDigit (b / 16) :: hexDigit (b % 16) :: (pctTriples bs ++ r)) := rfl
    rw [hcons] at hone ⊢
    rw [pctBytes_cons hone, ih (fun x hx => hb x (by simp [hx]))]
    cases pctBytes r <;> simp

/-! ### The single-character replace passes distribute over the encoder -/

theorem replaceAll_single_append (a : Char) (rep x y : List Char) :
    replaceAll [a] rep (x ++ y) =
      replaceAll [a] rep x ++ replaceAll [a] rep y := by
  induction x with
  | nil => simp [replaceAll_nil]
  | cons c cs ih =>
    by_cases hc : a = c
    · have hm : startsW [a] (c :: (cs ++ y)) = true := by
        simp [startsW, hc]
      have hm2 : startsW [a] (c :: cs) = true := by
        simp [startsW, hc]
      rw [List.cons_append, replaceAll_pos rep (by simp) hm,
        replaceAll_pos rep (by simp) hm2]
      simp only [List.length_cons, List.length_nil, Nat.zero_add,
        Nat.sub_self, List.drop_zero]
      rw [ih]
      simp
    · have hm : startsW [a] (c :: (cs ++ y)) = false := by
        simp [startsW]
        exact fun h => absurd h hc
      have hm2 : startsW [a] (c :: cs) = false := by
        simp [startsW]
        exact fun h => absurd h hc
      rw [List.cons_append, replaceAll_neg rep hm, replaceAll_neg rep hm2]
      rw [ih]
      simp

theorem replaceAll_single_not_mem (a : Char) (rep : List Char) :
    ∀ t : List Char, a ∉ t → replaceAll [a] rep t = t := by
  intro t
  induction t with
  | nil => exact fun _ => replaceAll_nil _ _
  | cons c cs ih =>
    intro h
    have hc : a ≠ c := fun hac => h (by simp [hac])
    have hm : startsW [a] (c :: cs) = false := by
      simp [startsW]
      exact fun hh => absurd hh hc
    rw [replaceAll_neg rep hm, ih (fun hh => h (by simp [hh]))]

theorem hexDigit_ne_special : ∀ n, n < 16 →
    hexDigit n ≠ apos ∧ hexDigit n ≠ '"' ∧ hexDigit n ≠ '%' := by decide

theorem pctTriples_not_mem (bytes : List Nat) (hb : ∀ b ∈ bytes, b < 256) :
    apos ∉ pctTriples bytes ∧ '"' ∉ pctTriples bytes := by
  induction bytes with
  | nil => simp [pctTriples]
  | cons b bs ih =>
    have hb0 : b < 256 := hb b (by simp)
    have h1 := hexDigit_ne_special (b / 16) (by omega)
    have h2 := hexDigit_ne_special (b % 16) (by omega)
    have ih2 := ih (fun x hx => hb x (by simp [hx]))
    show apos ∉ pctTriple b ++ pctTriples bs ∧ '"' ∉ pctTriple b ++ pctTriples bs
    simp only [pctTriple, List.mem_append, List.mem_cons, List.not_mem_nil]
    constructor
    · rintro (h | h)
      · rcases h with h | h | h
        · exact absurd h.symm (by decide)
        · exact absurd h.symm h1.1
        · rcases h with h | h
          · exact absurd h.symm h2.1
          · exact h
      · exact ih2.1 h
    · rintro (h | h)
      · rcases h with h | h | h
        · exact absurd h.symm (by decide)
        · exact absurd h.symm h1.2.1
        · rcases h with h | h
          · exact absurd h.symm h2.2.1
          · exact h
      · exact ih2.2 h

theorem cssEncChar_eq (c : Char) :
    replaceAll ['"'] (("%22").toList) (replaceAll [apos] (("%27").toList) (encChar c)) =
      cssEnc c := by
  by_cases hu : isUriUnreserved c = true
  · by_cases ha : c = apos
    · subst ha
      decide
    · have h1 : encChar c = [c] := by
        unfold encChar
        simp [hu]
      have hq : c ≠ '"' := by
        intro hq
        rw [hq] at hu
        exact absurd hu (by decide)
      rw [h1, replaceAll_single_not_mem apos _ [c] (by simp [Ne.symm ha]),
        replaceAll_single_not_mem '"' _ [c] (by simp [Ne.symm hq])]
      unfold cssEnc
      simp [hu, bne_iff_ne, ha]
  · have hu' : isUriUnreserved c = false := by
      simpa using hu
    have h1 : encChar c = pctTriples (utf8Bytes c) := by
      unfold encChar
      simp [hu']
    have hnm := pctTriples_not_mem (utf8Bytes c) (utf8Bytes_lt_256 c)
    rw [h1, replaceAll_single_not_mem apos _ _ hnm.1,
      replaceAll_single_not_mem '"' _ _ hnm.2]
    unfold cssEnc
    simp [hu']

theorem encodedSvg_eq (s : List Char) : encodedSvg s = cssEncAll s := by
  induction s with
  | nil =>
    show replaceAll ['"'] _ (replaceAll [apos] _ (encodeUC [])) = []
    simp [encodeUC, replaceAll_nil]
  | cons c cs ih =>
    show replaceAll ['"'] _ (replaceAll [apos] _ (encChar c ++ encodeUC cs)) =
      cssEnc c ++ cssEncAll cs
    rw [replaceAll_single_append, replaceAll_single_append]
    rw [cssEncChar_eq]
    unfold encodedSvg at ih
    rw [ih]

/-! ### Stage-1 of the whole payload -/

theorem unres_toNat_lt {c : Char} (hu : isUriUnreserved c = true) :
    c.toNat < 128 := by
  unfold isUriUnreserved at hu
  simp only [Bool.or_eq_true, Bool.and_eq_true, decide_eq_true_eq, beq_iff_eq] at hu
  rcases hu with
    (((((((((((h | h) | h) | h) | h) | h) | h) | h) | h) | h) | h) | h)
  all_goals first
  | omega
  | (subst h; decide)

theorem unres_ne_pct {c : Char} (hu : isUriUnreserved c = true) : c ≠ '%' := by
  intro h
  rw [h] at hu
  exact absurd hu (by decide)

theorem pctBytes_cssEncAll (s : List Char) :
    pctBytes (cssEncAll s) = some (utf8Seq s) := by
  induction s with
  | nil => rfl
  | cons c cs ih =>
    show pctBytes (cssEnc c ++ cssEncAll cs) = some (utf8Bytes c ++ utf8Seq cs)
    by_cases hc : isUriUnreserved c = true ∧ c ≠ apos
    · have h1 : cssEnc c = [c] := by
        unfold cssEnc
        simp [hc.1, bne_iff_ne, hc.2]
      have hb : utf8Bytes c = [c.toNat] := by
        unfold utf8Bytes
        simp [unres_toNat_lt hc.1]
      rw [h1, hb]
      have hone : pctOne (c :: cssEncAll cs) = some (c.toNat, cssEncAll cs) :=
        pctOne_plain _ (unres_ne_pct hc.1)
      show pctBytes (c :: cssEncAll cs) = some (c.toNat :: utf8Seq cs)
      rw [pctBytes_cons hone, ih]
      rfl
    · have h1 : cssEnc c = pctTriples (utf8Bytes c) := by
        unfold cssEnc
        rcases not_and_or.1 hc with h | h
        · have h' : isUriUnreserved c = false := by simpa using h
          simp [h']
        · have hca : c = apos := not_not.1 h
          simp [hca]
      rw [h1, pctBytes_triples _ _ (utf8Bytes_lt_256 c), ih]
      rfl

/-! ### C7 -/

/-- C7: for every input string (all Lean strings are sequences of Unicode
scalar values, hence free of unpaired surrogates), percent-decoding the css
data-URI payload recovers the input exactly; and for non-empty input the css
output embeds that payload between the fixed wrapper pieces. -/
theorem C7_css_round_trip (s : List Char) :
    percentDecode (encodedSvg s) = some s ∧
    (s ≠ [] →
      getTransformedCode s FormatType.css = cssPre ++ encodedSvg s ++ cssPost) := by
  constructor
  · unfold percentDecode
    rw [encodedSvg_eq, pctBytes_cssEncAll]
    show utf8Decode (utf8Seq s) = some s
    exact utf8Decode_utf8Seq s
  · intro hs
    unfold getTransformedCode
    simp [hs]

theorem C7_css_round_trip_witness :
    percentDecode (encodedSvg (("<svg fill=\x27a\x22/>").toList)) =
      some (("<svg fill=\x27a\x22/>").toList) ∧
    getTransformedCode (("<svg fill=\x27a\x22/>").toList) FormatType.css =
      cssPre ++ encodedSvg (("<svg fill=\x27a\x22/>").toList) ++ cssPost :=
  ⟨(C7_css_round_trip _).1, (C7_css_round_trip _).2 (by decide)⟩

/-! ## C9: surrounding whitespace passes through every stage before `trim` -/

theorem isJsSpace_toNat {c : Char} (h : isJsSpace c = true) :
    c.toNat ≤ 32 ∨ 160 ≤ c.toNat := by
  unfold isJsSpace at h
  simp only [Bool.or_eq_true, Bool.and_eq_true, beq_iff_eq,
    decide_eq_true_eq, Nat.beq_eq] at h
  rcases h with
    ((((((((((((((h | h) | h) | h) | h) | h) | h) | h) | h) | h) | h) | h) | h) | h) | h)
  all_goals first
  | omega
  | (subst h; decide)

theorem startsW_ws_head {k0 : Char} (ks rest : List Char) {c : Char}
    (hk : 33 ≤ k0.toNat ∧ k0.toNat ≤ 126) (hc : isJsSpace c = true) :
    startsW (k0 :: ks) (c :: rest) = false := by
  have hne : ¬(k0 = c) := by
    intro h
    subst h
    rcases isJsSpace_toNat hc with h | h <;> omega
  simp only [startsW, Bool.and_eq_true_iff]
  simp [hne]

theorem startsW_extend {p s : List Char} (w : List Char) (h : startsW p s = true) :
    startsW p (s ++ w) = true := by
  obtain ⟨t, rfl⟩ := (startsW_iff p s).1 h
  rw [List.append_assoc]
  exact startsW_refl_append p (t ++ w)

theorem startsW_ascii_pad {pat s w : List Char}
    (hpa : ∀ k ∈ pat, 33 ≤ k.toNat ∧ k.toNat ≤ 126)
    (h : startsW pat s = false) (hw : ∀ c ∈ w, isJsSpace c = true) :
    startsW pat (s ++ w) = false := by
  by_contra hh
  simp only [Bool.not_eq_false] at hh
  rcases startsW_append_split hh with ⟨h1, -⟩ | ⟨k2, hk2, h2⟩
  · rw [h1] at h
    exact absurd h (by simp)
  · cases k2 with
    | nil =>
      rw [List.append_nil] at hk2
      subst hk2
      rw [show startsW pat pat = true by
        simpa using startsW_refl_append pat []] at h
      exact absurd h (by simp)
    | cons k0 k2s =>
      cases w with
      | nil => simp [startsW] at h2
      | cons wc ws' =>
        have hmem : k0 ∈ pat := by
          rw [hk2]
          exact List.mem_append_right _ (by simp)
        rw [startsW_ws_head k2s ws' (hpa k0 hmem) (hw wc (by simp))] at h2
        exact absurd h2 (by simp)

theorem dropWhile_ne_nil_append {p : Char → Bool} {l : List Char} (w : List Char)
    (h : l.dropWhile p ≠ []) : (l ++ w).dropWhile p = l.dropWhile p ++ w := by
  induction l with
  | nil => exact absurd rfl h
  | cons c cs ih =>
    rw [List.cons_append, List.dropWhile_cons, List.dropWhile_cons]
    by_cases hp : p c = true
    · rw [if_pos hp, if_pos hp]
      rw [List.dropWhile_cons, if_pos hp] at h
      exact ih h
    · rw [if_neg hp, if_neg hp]
      simp

theorem takeWhile_ne_nil_append {p : Char → Bool} {l : List Char} (w : List Char)
    (h : l.dropWhile p ≠ []) : (l ++ w).takeWhile p = l.takeWhile p := by
  induction l with
  | nil => exact absurd rfl h
  | cons c cs ih =>
    rw [List.cons_append, List.takeWhile_cons, List.takeWhile_cons]
    by_cases hp : p c = true
    · rw [if_pos hp, if_pos hp]
      rw [List.dropWhile_cons, if_pos hp] at h
      rw [ih h]
    · rw [if_neg hp, if_neg hp]

theorem ws_pred_ne {c : Char} (hc : isJsSpace c = true) {k : Char}
    (hk : 33 ≤ k.toNat ∧ k.toNat ≤ 126) : (c != k) = true := by
  simp only [bne_iff_ne, ne_eq]
  intro h
  subst h
  rcases isJsSpace_toNat hc with h | h <;> omega

/-! ### The XML-declaration scrub and whitespace padding -/

theorem xmlHead_cons : ("<?xml").toList = '<' :: ("?xml").toList := rfl

theorem xmlChars : ∀ k ∈ (("<?xml").toList), 33 ≤ k.toNat ∧ k.toNat ≤ 126 := by decide

theorem xmlDeclSplit_ws_some {c : Char} {cs t : List Char} (w : List Char)
    (hx : xmlDeclSplit (c :: cs) = some t)
    (hw : ∀ x ∈ w, isJsSpace x = true) :
    xmlDeclSplit ((c :: cs) ++ w) = some (t ++ w) := by
  unfold xmlDeclSplit at hx ⊢
  split at hx
  · rename_i hs
    rw [if_pos (startsW_extend w hs)]
    have h5 : 5 ≤ (c :: cs).length := startsW_length_le hs
    rw [List.drop_append_of_le_length h5]
    split at hx
    · rename_i tl hD
      injection hx with hx
      subst hx
      have hne : ((c :: cs).drop 5).dropWhile (fun x => x != '?') ≠ [] := by
        rw [hD]
        simp
      rw [dropWhile_ne_nil_append w hne, hD]
      rfl
    · exact absurd hx (by simp)
  · exact absurd hx (by simp)

theorem xmlDeclSplit_ws_none {c : Char} {cs : List Char} (w : List Char)
    (hx : xmlDeclSplit (c :: cs) = none)
    (hw : ∀ x ∈ w, isJsSpace x = true) :
    xmlDeclSplit ((c :: cs) ++ w) = none := by
  unfold xmlDeclSplit at hx ⊢
  by_cases hs : startsW (("<?xml").toList) (c :: cs) = true
  · rw [if_pos hs] at hx
    rw [if_pos (startsW_extend w hs)]
    have h5 : 5 ≤ (c :: cs).length := startsW_length_le hs
    rw [List.drop_append_of_le_length h5]
    cases hD : ((c :: cs).drop 5).dropWhile (fun x => x != '?') with
    | nil =>
      have hall : ∀ x ∈ (c :: cs).drop 5, (x != '?') = true :=
        List.dropWhile_eq_nil_iff.1 hD
      rw [dropWhile_all_append _ hall]
      have hallw : ∀ x ∈ w, (x != '?') = true := fun x hxw =>
        ws_pred_ne (hw x hxw) (by decide)
      rw [List.dropWhile_eq_nil_iff.2 hallw]
    | cons d ds =>
      have hdf := dropWhile_head_false hD
      have hd : d = '?' := by simpa using hdf
      subst hd
      have hne : ((c :: cs).drop 5).dropWhile (fun x => x != '?') ≠ [] := by
        rw [hD]
        simp
      rw [dropWhile_ne_nil_append w hne, hD]
      rw [hD] at hx
      cases ds with
      | nil =>
        cases w with
        | nil => rfl
        | cons wc ws' =>
          have hwc : ¬(wc = '>') := by
            have := ws_pred_ne (hw wc (by simp)) (k := '>') (by decide)
            simpa [bne_iff_ne] using this
          simp only [List.cons_append, List.nil_append]
          split
          · rename_i heq
            injection heq with h1 h2
            injection h2 with h2
            exact absurd h2 hwc
          · rfl
      | cons e es =>
        have he : ¬(e = '>') := by
          intro hh
          subst hh
          exact absurd hx (by simp)
        simp only [List.cons_append]
        split
        · rename_i heq
          injection heq with h1 h2
          injection h2 with h2
          exact absurd h2 he
        · rfl
  · have hs' : startsW (("<?xml").toList) (c :: cs) = false := by
      simpa using hs
    have hpad : startsW (("<?xml").toList) (c :: (cs ++ w)) = false := by
      have hp2 := startsW_ascii_pad xmlChars hs' hw
      simpa using hp2
    rw [if_neg (by
      have hpad2 : startsW ['<', '?', 'x', 'm', 'l'] (c :: (cs ++ w)) = false := hpad
      simp [hpad2])]

theorem removeXml_ws_left (w t : List Char) (hw : ∀ x ∈ w, isJsSpace x = true) :
    removeXmlDecl (w ++ t) = w ++ removeXmlDecl t := by
  induction w with
  | nil => simp
  | cons c w' ih =>
    have hx : xmlDeclSplit (c :: (w' ++ t)) = none := by
      unfold xmlDeclSplit
      rw [xmlHead_cons, startsW_ws_head _ _ (by decide) (hw c (by simp))]
      simp
    rw [List.cons_append, removeXml_neg hx, ih (fun x hxw => hw x (by simp [hxw]))]
    rfl

theorem removeXml_ws_right (t w : List Char) (hw : ∀ x ∈ w, isJsSpace x = true) :
    removeXmlDecl (t ++ w) = removeXmlDecl t ++ w := by
  have hgen : ∀ n t, t.length ≤ n → removeXmlDecl (t ++ w) = removeXmlDecl t ++ w := by
    intro n
    induction n with
    | zero =>
      intro t ht
      have : t = [] := List.length_eq_zero.1 (Nat.le_zero.1 ht)
      subst this
      have h0 := removeXml_ws_left w [] hw
      simpa [removeXml_nil] using h0
    | succ n ihn =>
      intro t ht
      cases t with
      | nil =>
        have h0 := removeXml_ws_left w [] hw
        simpa [removeXml_nil] using h0
      | cons c ts =>
        simp only [List.length_cons] at ht
        cases hx : xmlDeclSplit (c :: ts) with
        | some r =>
          have hlen : r.length + 2 ≤ ts.length + 1 := by
            simpa using xmlDeclSplit_length hx
          rw [List.cons_append, removeXml_pos (by
            simpa using xmlDeclSplit_ws_some w hx hw), removeXml_pos hx]
          exact ihn r (by omega)
        | none =>
          rw [List.cons_append, removeXml_neg (by
            simpa using xmlDeclSplit_ws_none w hx hw), removeXml_neg hx]
          rw [ihn ts (by omega)]
          rfl
  exact hgen t.length t (Nat.le_refl _)

/-! ### Rename passes and whitespace padding -/

theorem replaceAll_ws_left {pat : List Char} (rep w t : List Char)
    (hpa : ∀ k ∈ pat, 33 ≤ k.toNat ∧ k.toNat ≤ 126) (hne : pat ≠ [])
    (hw : ∀ x ∈ w, isJsSpace x = true) :
    replaceAll pat rep (w ++ t) = w ++ replaceAll pat rep t := by
  induction w with
  | nil => simp
  | cons c w' ih =>
    obtain ⟨k0, ks, rfl⟩ : ∃ k0 ks, pat = k0 :: ks := by
      cases pat with
      | nil => exact absurd rfl hne
      | cons k0 ks => exact ⟨k0, ks, rfl⟩
    rw [List.cons_append, replaceAll_neg rep
      (startsW_ws_head ks _ (hpa k0 (by simp)) (hw c (by simp)))]
    rw [ih (fun x hxw => hw x (by simp [hxw]))]
    rfl

theorem replaceAll_ws_id {pat : List Char} (rep w : List Char)
    (hpa : ∀ k ∈ pat, 33 ≤ k.toNat ∧ k.toNat ≤ 126) (hne : pat ≠ [])
    (hw : ∀ x ∈ w, isJsSpace x = true) :
    replaceAll pat rep w = w := by
  have h0 := replaceAll_ws_left rep w [] hpa hne hw
  simpa [replaceAll_nil] using h0

theorem replaceAll_ws_right {pat : List Char} (rep t w : List Char)
    (hpa : ∀ k ∈ pat, 33 ≤ k.toNat ∧ k.toNat ≤ 126) (hne : pat ≠ [])
    (hw : ∀ x ∈ w, isJsSpace x = true) :
    replaceAll pat rep (t ++ w) = replaceAll pat rep t ++ w := by
  have hgen : ∀ n t, t.length ≤ n →
      replaceAll pat rep (t ++ w) = replaceAll pat rep t ++ w := by
    intro n
    induction n with
    | zero =>
      intro t ht
      have : t = [] := List.length_eq_zero.1 (Nat.le_zero.1 ht)
      subst this
      simpa [replaceAll_nil] using replaceAll_ws_id rep w hpa hne hw
    | succ n ihn =>
      intro t ht
      cases t with
      | nil => simpa [replaceAll_nil] using replaceAll_ws_id rep w hpa hne hw
      | cons c ts =>
        simp only [List.length_cons] at ht
        by_cases hm : startsW pat (c :: ts) = true
        · have hlen : pat.length ≤ ts.length + 1 := by
            simpa using startsW_length_le hm
          rw [List.cons_append, replaceAll_pos rep hne (by
            simpa using startsW_extend w hm), replaceAll_pos rep hne hm]
          rw [List.drop_append_of_le_length (by omega)]
          rw [ihn (ts.drop (pat.length - 1)) (by
            simp only [List.length_drop]
            omega)]
          simp
        · have hm' : startsW pat (c :: ts) = false := by simpa using hm
          rw [List.cons_append, replaceAll_neg rep (by
            simpa using startsW_ascii_pad hpa hm' hw), replaceAll_neg rep hm']
          rw [ihn ts (by omega)]
          rfl
  exact hgen t.length t (Nat.le_refl _)

/-- The attribute table's keys are non-empty printable-ASCII strings. -/
theorem attributeMap_ascii :
    ∀ e ∈ attributeMap, e.1 ≠ [] ∧ ∀ k ∈ e.1, 33 ≤ k.toNat ∧ k.toNat ≤ 126 := by
  decide

theorem applyMap_ws (tbl : List (List Char × List Char))
    (htbl : ∀ e ∈ tbl, e.1 ≠ [] ∧ ∀ k ∈ e.1, 33 ≤ k.toNat ∧ k.toNat ≤ 126)
    (w1 t w2 : List Char)
    (hw1 : ∀ x ∈ w1, isJsSpace x = true) (hw2 : ∀ x ∈ w2, isJsSpace x = true) :
    applyMap tbl (w1 ++ (t ++ w2)) = w1 ++ (applyMap tbl t ++ w2) := by
  induction tbl generalizing t with
  | nil => rfl
  | cons e rest ih =>
    obtain ⟨hne, hpa⟩ := htbl e (by simp)
    show applyMap rest (replaceAll e.1 e.2 (w1 ++ (t ++ w2))) =
      w1 ++ (applyMap rest (replaceAll e.1 e.2 t) ++ w2)
    rw [replaceAll_ws_left e.2 w1 (t ++ w2) hpa hne hw1,
      replaceAll_ws_right e.2 t w2 hpa hne hw2]
    exact ih (fun f hf => htbl f (by simp [hf])) (replaceAll e.1 e.2 t)

/-! ### The tag splice and whitespace padding -/

theorem svgLit_ascii : ∀ k ∈ svgLit, 33 ≤ k.toNat ∧ k.toNat ≤ 126 := by decide

theorem svgTagSplice_neg {c : Char} {cs : List Char}
    (hm : startsW svgLit (c :: cs) = false) :
    svgTagSplice (c :: cs) = c :: svgTagSplice cs := by
  conv_lhs => unfold svgTagSplice
  simp only [hm, Bool.false_eq_true, if_false]

theorem svgTagSplice_pos_nil {c : Char} {cs : List Char}
    (hm : startsW svgLit (c :: cs) = true)
    (hD : (List.drop 4 (c :: cs)).dropWhile (fun x => x != '>') = []) :
    svgTagSplice (c :: cs) = c :: svgTagSplice cs := by
  conv_lhs => unfold svgTagSplice
  simp only [hm, if_true, hD]

theorem svgTagSplice_pos_cons {c : Char} {cs tail : List Char}
    (hm : startsW svgLit (c :: cs) = true)
    (hD : (List.drop 4 (c :: cs)).dropWhile (fun x => x != '>') = '>' :: tail) :
    svgTagSplice (c :: cs) =
      spliceHead ++ (List.drop 4 (c :: cs)).takeWhile (fun x => x != '>') ++
        '>' :: tail := by
  conv_lhs => unfold svgTagSplice
  simp only [hm, if_true, hD]

theorem splice_ws_left (w t : List Char) (hw : ∀ x ∈ w, isJsSpace x = true) :
    svgTagSplice (w ++ t) = w ++ svgTagSplice t := by
  induction w with
  | nil => simp
  | cons c w' ih =>
    have hm : startsW svgLit (c :: (w' ++ t)) = false :=
      startsW_ws_head _ _ (by decide) (hw c (by simp))
    rw [List.cons_append, svgTagSplice_neg hm,
      ih (fun x hxw => hw x (by simp [hxw]))]
    rfl

theorem splice_ws_id (w : List Char) (hw : ∀ x ∈ w, isJsSpace x = true) :
    svgTagSplice w = w := by
  have h0 := splice_ws_left w [] hw
  have h1 : svgTagSplice ([] : List Char) = [] := rfl
  simpa [h1] using h0

theorem splice_ws_right (t w : List Char) (hw : ∀ x ∈ w, isJsSpace x = true) :
    svgTagSplice (t ++ w) = svgTagSplice t ++ w := by
  induction t with
  | nil => simpa using splice_ws_id w hw
  | cons c ts ih =>
    by_cases hm : startsW svgLit (c :: ts) = true
    · have hlen : 4 ≤ (c :: ts).length := startsW_length_le hm
      have hmext : startsW svgLit (c :: (ts ++ w)) = true := by
        simpa using startsW_extend w hm
      have hdrop : List.drop 4 (c :: (ts ++ w)) = List.drop 4 (c :: ts) ++ w := by
        have hd0 := @List.drop_append_of_le_length Char (c :: ts) w 4 hlen
        simpa using hd0
      rw [List.cons_append]
      cases hD : (List.drop 4 (c :: ts)).dropWhile (fun x => x != '>') with
      | nil =>
        have hallx : ∀ x ∈ List.drop 4 (c :: ts), (x != '>') = true :=
          List.dropWhile_eq_nil_iff.1 hD
        have hallw : ∀ x ∈ w, (x != '>') = true := fun x hxw =>
          ws_pred_ne (hw x hxw) (by decide)
        have hDext : (List.drop 4 (c :: (ts ++ w))).dropWhile (fun x => x != '>') = [] := by
          rw [hdrop, dropWhile_all_append _ hallx, List.dropWhile_eq_nil_iff.2 hallw]
        rw [svgTagSplice_pos_nil hmext hDext, svgTagSplice_pos_nil hm hD, ih]
        rfl
      | cons d tail =>
        have hd : d = '>' := by simpa using dropWhile_head_false hD
        subst hd
        have hne : (List.drop 4 (c :: ts)).dropWhile (fun x => x != '>') ≠ [] := by
          rw [hD]
          simp
        have hDext : (List.drop 4 (c :: (ts ++ w))).dropWhile (fun x => x != '>') =
            '>' :: (tail ++ w) := by
          rw [hdrop, dropWhile_ne_nil_append w hne, hD]
          rfl
        have hText : (List.drop 4 (c :: (ts ++ w))).takeWhile (fun x => x != '>') =
            (List.drop 4 (c :: ts)).takeWhile (fun x => x != '>') := by
          rw [hdrop, takeWhile_ne_nil_append w hne]
        rw [svgTagSplice_pos_cons hmext hDext, svgTagSplice_pos_cons hm hD, hText]
        simp
    · have hm' : startsW svgLit (c :: ts) = false := by simpa using hm
      have hmext : startsW svgLit (c :: (ts ++ w)) = false := by
        simpa using startsW_ascii_pad svgLit_ascii hm' hw
      rw [List.cons_append, svgTagSplice_neg hmext, svgTagSplice_neg hm', ih]
      rfl

/-! ### `trim` absorbs the padding -/

theorem jsTrim_pad (w1 x w2 : List Char)
    (hw1 : ∀ c ∈ w1, isJsSpace c = true) (hw2 : ∀ c ∈ w2, isJsSpace c = true) :
    jsTrim (w1 ++ (x ++ w2)) = jsTrim x := by
  unfold jsTrim
  rw [dropWhile_all_append _ hw1]
  by_cases hx : x.dropWhile isJsSpace = []
  · rw [dropWhile_all_append _ (List.dropWhile_eq_nil_iff.1 hx), hx,
      List.dropWhile_eq_nil_iff.2 hw2]
  · rw [dropWhile_ne_nil_append _ hx]
    rw [List.reverse_append]
    rw [dropWhile_all_append _ (fun c hc => hw2 c (List.mem_reverse.1 hc))]

/-! ### C9 -/

/-- C9: the SVG text embedded in the jsx/tsx outputs is the transformed input
with surrounding whitespace trimmed, so inputs differing only by surrounding
whitespace produce identical jsx/tsx output (the raw format, by contrast,
returns the padded input verbatim). -/
theorem C9_whitespace_trimmed (s w1 w2 : List Char) (hs : s ≠ [])
    (hw1 : ∀ c ∈ w1, isJsSpace c = true) (hw2 : ∀ c ∈ w2, isJsSpace c = true) :
    convertToReactProps (w1 ++ s ++ w2) = convertToReactProps s ∧
    getTransformedCode (w1 ++ s ++ w2) FormatType.jsx =
      getTransformedCode s FormatType.jsx ∧
    getTransformedCode (w1 ++ s ++ w2) FormatType.tsx =
      getTransformedCode s FormatType.tsx ∧
    getTransformedCode s FormatType.jsx =
      jsxPre ++ convertToReactProps s ++ jsxPost ∧
    getTransformedCode s FormatType.tsx =
      tsxPre ++ convertToReactProps s ++ tsxPost := by
  have hconv : convertToReactProps (w1 ++ s ++ w2) = convertToReactProps s := by
    unfold convertToReactProps
    rw [List.append_assoc]
    rw [removeXml_ws_left w1 (s ++ w2) hw1, removeXml_ws_right s w2 hw2]
    rw [applyMap_ws attributeMap attributeMap_ascii w1 (removeXmlDecl s) w2 hw1 hw2]
    rw [splice_ws_left w1 _ hw1, splice_ws_right _ w2 hw2]
    exact jsTrim_pad w1 _ w2 hw1 hw2
  have hpadne : w1 ++ s ++ w2 ≠ [] := by
    intro h
    rcases List.append_eq_nil.1 h with ⟨h1, -⟩
    rcases List.append_eq_nil.1 h1 with ⟨-, h2⟩
    exact hs h2
  refine ⟨hconv, ?_, ?_, ?_, ?_⟩
  · unfold getTransformedCode
    simp only [hs, hpadne, if_false]
    rw [hconv]
  · unfold getTransformedCode
    simp only [hs, hpadne, if_false]
    rw [hconv]
  · unfold getTransformedCode
    simp [hs]
  · unfold getTransformedCode
    simp [hs]

theorem C9_whitespace_trimmed_witness :
    convertToReactProps ((" ").toList ++ ("<svg/>").toList ++ ("\n\t").toList) =
      convertToReactProps (("<svg/>").toList) ∧
    getTransformedCode ((" ").toList ++ ("<svg/>").toList ++ ("\n\t").toList)
        FormatType.jsx = getTransformedCode (("<svg/>").toList) FormatType.jsx ∧
    getTransformedCode ((" ").toList ++ ("<svg/>").toList ++ ("\n\t").toList)
        FormatType.tsx = getTransformedCode (("<svg/>").toList) FormatType.tsx ∧
    getTransformedCode (("<svg/>").toList) FormatType.jsx =
      jsxPre ++ convertToReactProps (("<svg/>").toList) ++ jsxPost ∧
    getTransformedCode (("<svg/>").toList) FormatType.tsx =
      tsxPre ++ convertToReactProps (("<svg/>").toList) ++ tsxPost :=
  C9_whitespace_trimmed _ _ _ (by decide) (by decide) (by decide)

/-! ## C5: no hyphenated attribute key survives the jsx/tsx transform

The heart of the argument: one `replaceAll` pass can never create a new
occurrence of a key `K` (its own or an earlier one), because every lowercase
fragment shared between the camelCase replacement and the boundary of `K` is
also shared with the hyphenated pattern, so any would-be new occurrence maps
back to an occurrence in the pre-pass string. -/

theorem startsW_nil_eq {k : List Char} (h : startsW k [] = true) : k = [] := by
  cases k with
  | nil => rfl
  | cons a as => simp [startsW] at h

theorem hasSub_nil_of_ne {p : List Char} (hp : p ≠ []) : hasSub p [] = false := by
  cases p with
  | nil => exact absurd rfl hp
  | cons a as => simp [hasSub, startsW]

theorem hasSub_self {p : List Char} : hasSub p p = true :=
  hasSub_of_startsW (by simpa using startsW_refl_append p [])

theorem startsW_decomp {pat : List Char} {c : Char} {cs : List Char}
    (hpat : pat ≠ []) (hm : startsW pat (c :: cs) = true) :
    c :: cs = pat ++ cs.drop (pat.length - 1) := by
  obtain ⟨t, ht⟩ := (startsW_iff _ _).1 hm
  have hteq : t = (c :: cs).drop pat.length := by
    rw [ht, List.drop_left]
  have hd : (c :: cs).drop pat.length = cs.drop (pat.length - 1) := by
    cases pat with
    | nil => exact absurd rfl hpat
    | cons p0 ps => rfl
  rw [ht, hteq, hd]

/-- No occurrence of `K` can start inside emitted text and extend into the
transformed remainder, provided the pre-pass string had no `K`. -/
theorem tail2 {K pat rep : List Char} (hK : K ≠ []) (hpat : pat ≠ [])
    (h1 : hasSub K rep = false) (h2 : hasSub rep K = false)
    (h3 : ∀ i, i < K.length → 0 < i →
      startsW (K.drop i) rep = true → startsW (K.drop i) pat = true) :
    ∀ s w k2, hasSub K (w ++ s) = false →
      startsW k2 (replaceAll pat rep s) = true → K ≠ w ++ k2 := by
  have hgen : ∀ n s, s.length ≤ n → ∀ w k2, hasSub K (w ++ s) = false →
      startsW k2 (replaceAll pat rep s) = true → K ≠ w ++ k2 := by
    intro n
    induction n with
    | zero =>
      intro s hs w k2 hno hk2 hKeq
      have hsnil : s = [] := List.length_eq_zero.1 (Nat.le_zero.1 hs)
      subst hsnil
      rw [replaceAll_nil] at hk2
      have hk2nil : k2 = [] := startsW_nil_eq hk2
      subst hk2nil
      rw [List.append_nil] at hKeq
      subst hKeq
      rw [List.append_nil, hasSub_self] at hno
      exact absurd hno (by simp)
    | succ n ihn =>
      intro s hs w k2 hno hk2 hKeq
      cases s with
      | nil =>
        rw [replaceAll_nil] at hk2
        have hk2nil : k2 = [] := startsW_nil_eq hk2
        subst hk2nil
        rw [List.append_nil] at hKeq
        subst hKeq
        rw [List.append_nil, hasSub_self] at hno
        exact absurd hno (by simp)
      | cons c cs =>
        simp only [List.length_cons] at hs
        cases k2 with
        | nil =>
          rw [List.append_nil] at hKeq
          subst hKeq
          rw [hasSub_append_left hasSub_self] at hno
          exact absurd hno (by simp)
        | cons k20 k2s =>
          by_cases hm : startsW pat (c :: cs) = true
          · rw [replaceAll_pos rep hpat hm] at hk2
            rcases startsW_append_split hk2 with ⟨hpre, -⟩ | ⟨k3, hk3, hst3⟩
            · -- k2 is a nonempty prefix of rep
              cases w with
              | nil =>
                rw [List.nil_append] at hKeq
                subst hKeq
                rw [hasSub_of_startsW hpre] at h1
                exact absurd h1 (by simp)
              | cons w0 ws =>
                have hdropK : K.drop (w0 :: ws).length = k20 :: k2s := by
                  rw [hKeq, List.drop_left]
                have hiK : (w0 :: ws).length < K.length := by
                  rw [hKeq, List.length_append]
                  simp
                have hpre' : startsW (K.drop (w0 :: ws).length) rep = true := by
                  rw [hdropK]
                  exact hpre
                have hpat2 := h3 _ hiK (by simp) hpre'
                rw [hdropK] at hpat2
                -- pat = (k20 :: k2s) ++ r2, s = pat ++ s₂
                obtain ⟨r2, hr2⟩ := (startsW_iff _ _).1 hpat2
                obtain ⟨s2, hs2⟩ := (startsW_iff _ _).1 hm
                have : hasSub K ((w0 :: ws) ++ (c :: cs)) = true := by
                  rw [hs2, hr2, hKeq]
                  apply hasSub_of_startsW
                  rw [startsW_iff]
                  exact ⟨r2 ++ s2, by simp⟩
                rw [this] at hno
                exact absurd hno (by simp)
            · -- k2 = rep ++ k3 : K contains rep
              have : hasSub rep K = true := by
                rw [hKeq, hk3]
                exact (hasSub_iff _ _).2 ⟨w, k3, by simp⟩
              rw [this] at h2
              exact absurd h2 (by simp)
          · rw [replaceAll_neg rep (by simpa using hm)] at hk2
            simp only [startsW, Bool.and_eq_true, beq_iff_eq] at hk2
            obtain ⟨rfl, hk2s⟩ := hk2
            refine ihn cs (by omega) (w ++ [k20]) k2s ?_ hk2s ?_
            · rw [show (w ++ [k20]) ++ cs = w ++ (k20 :: cs) by simp]
              exact hno
            · rw [hKeq]
              simp
  intro s
  exact hgen s.length s (Nat.le_refl _)

/-- One pass of `replaceAll pat rep` preserves the absence of `K`. -/
theorem main2 {K pat rep : List Char} (hK : K ≠ []) (hpat : pat ≠ [])
    (h1 : hasSub K rep = false) (h2 : hasSub rep K = false)
    (h3 : ∀ i, i < K.length → 0 < i →
      startsW (K.drop i) rep = true → startsW (K.drop i) pat = true)
    (h4 : ∀ j, j < K.length → 0 < j →
      endsW (K.take j) rep = true → endsW (K.take j) pat = true) :
    ∀ s, hasSub K s = false → hasSub K (replaceAll pat rep s) = false := by
  have hgen : ∀ n s, s.length ≤ n → hasSub K s = false →
      hasSub K (replaceAll pat rep s) = false := by
    intro n
    induction n with
    | zero =>
      intro s hsn hno
      have hsnil : s = [] := List.length_eq_zero.1 (Nat.le_zero.1 hsn)
      subst hsnil
      rw [replaceAll_nil]
      exact hasSub_nil_of_ne hK
    | succ n ihn =>
      intro s hsn hno
      cases s with
      | nil =>
        rw [replaceAll_nil]
        exact hasSub_nil_of_ne hK
      | cons c cs =>
        simp only [List.length_cons] at hsn
        by_cases hm : startsW pat (c :: cs) = true
        · rw [replaceAll_pos rep hpat hm]
          by_contra htrue
          simp only [Bool.not_eq_false] at htrue
          have hs2no : hasSub K (cs.drop (pat.length - 1)) = false := by
            by_contra hh
            simp only [Bool.not_eq_false] at hh
            rw [hasSub_cons (hasSub_drop hh)] at hno
            exact absurd hno (by simp)
          rcases hasSub_append_cases htrue with hin | hin | ⟨k1, k2x, hKeq, hk1, hk2x, hend, hstx⟩
          · rw [hin] at h1
            exact absurd h1 (by simp)
          · rw [ihn _ (by simp only [List.length_drop]; omega) hs2no] at hin
            exact absurd hin (by simp)
          · have htake : K.take k1.length = k1 := by
              rw [hKeq, List.take_left]
            have hjlt : k1.length < K.length := by
              rw [hKeq, List.length_append]
              cases k2x with
              | nil => exact absurd rfl hk2x
              | cons a as => simp
            have hjpos : 0 < k1.length := by
              cases k1 with
              | nil => exact absurd rfl hk1
              | cons a as => simp
            have hendpat : endsW (K.take k1.length) pat = true := by
              refine h4 _ hjlt hjpos ?_
              rw [htake]
              exact hend
            rw [htake] at hendpat
            obtain ⟨u, hu⟩ := (endsW_iff _ _).1 hendpat
            have hdec := startsW_decomp hpat hm
            obtain ⟨D, hD⟩ : ∃ D, cs.drop (pat.length - 1) = D := ⟨_, rfl⟩
            rw [hD] at hdec hstx
            have hnops : hasSub K (k1 ++ D) = false := by
              by_contra hh
              simp only [Bool.not_eq_false] at hh
              have hKc : hasSub K (c :: cs) = true := by
                rw [hdec, hu, List.append_assoc]
                exact hasSub_append_right u hh
              rw [hKc] at hno
              exact absurd hno (by simp)
            exact absurd hKeq (tail2 hK hpat h1 h2 h3 D k1 k2x hnops hstx)
        · rw [replaceAll_neg rep (by simpa using hm)]
          by_contra htrue
          simp only [Bool.not_eq_false, hasSub, Bool.or_eq_true] at htrue
          rcases htrue with hin | hin
          · cases K with
            | nil => exact absurd rfl hK
            | cons K0 K3 =>
              simp only [startsW, Bool.and_eq_true, beq_iff_eq] at hin
              obtain ⟨rfl, hK3⟩ := hin
              exact absurd rfl
                (tail2 hK hpat h1 h2 h3 cs [K0] K3
                  (by simpa using hno) hK3)
          · rw [ihn cs (by omega) (hasSub_false_tail hno)] at hin
            exact absurd hin (by simp)
  intro s
  exact hgen s.length s (Nat.le_refl _)

/-- No occurrence of `pat` itself can start inside emitted text and extend
into the transformed remainder. -/
theorem selft {pat rep : List Char} (hpat : pat ≠ [])
    (s2 : hasSub rep pat = false)
    (s3 : ∀ i, i < pat.length → 0 < i →
      startsW (pat.drop i) rep = true → startsW (pat.drop i) pat = true) :
    ∀ s w k2, startsW pat (w ++ s) = false →
      startsW k2 (replaceAll pat rep s) = true → pat ≠ w ++ k2 := by
  have hgen : ∀ n s, s.length ≤ n → ∀ w k2, startsW pat (w ++ s) = false →
      startsW k2 (replaceAll pat rep s) = true → pat ≠ w ++ k2 := by
    intro n
    induction n with
    | zero =>
      intro s hs w k2 hno hk2 hKeq
      have hsnil : s = [] := List.length_eq_zero.1 (Nat.le_zero.1 hs)
      subst hsnil
      rw [replaceAll_nil] at hk2
      have hk2nil : k2 = [] := startsW_nil_eq hk2
      subst hk2nil
      rw [List.append_nil] at hKeq
      subst hKeq
      rw [show pat ++ ([] : List Char) = pat by simp,
        show startsW pat pat = true by simpa using startsW_refl_append pat []] at hno
      exact absurd hno (by simp)
    | succ n ihn =>
      intro s hs w k2 hno hk2 hKeq
      cases s with
      | nil =>
        rw [replaceAll_nil] at hk2
        have hk2nil : k2 = [] := startsW_nil_eq hk2
        subst hk2nil
        rw [List.append_nil] at hKeq
        subst hKeq
        rw [show pat ++ ([] : List Char) = pat by simp,
          show startsW pat pat = true by simpa using startsW_refl_append pat []] at hno
        exact absurd hno (by simp)
      | cons c cs =>
        simp only [List.length_cons] at hs
        cases k2 with
        | nil =>
          rw [List.append_nil] at hKeq
          subst hKeq
          rw [show startsW pat (pat ++ (c :: cs)) = true from
            startsW_refl_append pat (c :: cs)] at hno
          exact absurd hno (by simp)
        | cons k20 k2s =>
          by_cases hm : startsW pat (c :: cs) = true
          · cases w with
            | nil =>
              rw [List.nil_append, hm] at hno
              exact absurd hno (by simp)
            | cons w0 ws =>
              rw [replaceAll_pos rep hpat hm] at hk2
              rcases startsW_append_split hk2 with ⟨hpre, -⟩ | ⟨k3, hk3, hst3⟩
              · have hdropK : pat.drop (w0 :: ws).length = k20 :: k2s := by
                  rw [hKeq, List.drop_left]
                have hiK : (w0 :: ws).length < pat.length := by
                  rw [hKeq, List.length_append]
                  simp
                have hpre' : startsW (pat.drop (w0 :: ws).length) rep = true := by
                  rw [hdropK]
                  exact hpre
                have hpat2 := s3 _ hiK (by simp) hpre'
                rw [hdropK] at hpat2
                obtain ⟨r2, hr2⟩ := (startsW_iff _ _).1 hpat2
                obtain ⟨sx, hsx⟩ := (startsW_iff _ _).1 hm
                have : startsW pat ((w0 :: ws) ++ (c :: cs)) = true := by
                  rw [startsW_iff]
                  refine ⟨r2 ++ sx, ?_⟩
                  rw [hsx]
                  conv_lhs => rw [hr2]
                  conv_rhs => rw [hKeq]
                  simp
                rw [this] at hno
                exact absurd hno (by simp)
              · have : hasSub rep pat = true := by
                  rw [hKeq, hk3]
                  exact (hasSub_iff _ _).2 ⟨w0 :: ws, k3, by simp⟩
                rw [this] at s2
                exact absurd s2 (by simp)
          · rw [replaceAll_neg rep (by simpa using hm)] at hk2
            simp only [startsW, Bool.and_eq_true, beq_iff_eq] at hk2
            obtain ⟨rfl, hk2s⟩ := hk2
            refine ihn cs (by omega) (w ++ [k20]) k2s ?_ hk2s ?_
            · rw [show (w ++ [k20]) ++ cs = w ++ (k20 :: cs) by simp]
              exact hno
            · rw [hKeq]
              simp
  intro s
  exact hgen s.length s (Nat.le_refl _)

/-- One pass of `replaceAll pat rep` leaves no occurrence of `pat` itself,
provided `pat` is unbordered and shares its boundary fragments with `rep`
only where they are also fragments of `pat`. -/
theorem selfm {pat rep : List Char} (hpat : pat ≠ [])
    (s1 : hasSub pat rep = false) (s2 : hasSub rep pat = false)
    (s3 : ∀ i, i < pat.length → 0 < i →
      startsW (pat.drop i) rep = true → startsW (pat.drop i) pat = true)
    (s4 : ∀ j, j < pat.length → 0 < j →
      endsW (pat.take j) rep = true → endsW (pat.take j) pat = true)
    (s5 : ∀ i, i < pat.length → 0 < i → startsW (pat.drop i) pat = false) :
    ∀ s, hasSub pat (replaceAll pat rep s) = false := by
  have hgen : ∀ n s, s.length ≤ n → hasSub pat (replaceAll pat rep s) = false := by
    intro n
    induction n with
    | zero =>
      intro s hsn
      have hsnil : s = [] := List.length_eq_zero.1 (Nat.le_zero.1 hsn)
      subst hsnil
      rw [replaceAll_nil]
      exact hasSub_nil_of_ne hpat
    | succ n ihn =>
      intro s hsn
      cases s with
      | nil =>
        rw [replaceAll_nil]
        exact hasSub_nil_of_ne hpat
      | cons c cs =>
        simp only [List.length_cons] at hsn
        by_cases hm : startsW pat (c :: cs) = true
        · rw [replaceAll_pos rep hpat hm]
          by_contra htrue
          simp only [Bool.not_eq_false] at htrue
          rcases hasSub_append_cases htrue with hin | hin | ⟨k1, k2x, hKeq, hk1, hk2x, hend, hstx⟩
          · rw [hin] at s1
            exact absurd s1 (by simp)
          · rw [ihn _ (by simp only [List.length_drop]; omega)] at hin
            exact absurd hin (by simp)
          · have htake : pat.take k1.length = k1 := by
              rw [hKeq, List.take_left]
            have hjlt : k1.length < pat.length := by
              rw [hKeq, List.length_append]
              cases k2x with
              | nil => exact absurd rfl hk2x
              | cons a as => simp
            have hjpos : 0 < k1.length := by
              cases k1 with
              | nil => exact absurd rfl hk1
              | cons a as => simp
            have hendpat : endsW k1 pat = true := by
              have := s4 _ hjlt hjpos (by rw [htake]; exact hend)
              rwa [htake] at this
            obtain ⟨u, hu⟩ := (endsW_iff _ _).1 hendpat
            -- k1 is thus a border of pat: a proper prefix (from hKeq)
            -- and a proper suffix (from hu); s5 forbids that.
            have hupos : 0 < u.length := by
              cases u with
              | nil =>
                rw [List.nil_append] at hu
                exfalso
                have : pat.length = k1.length := by rw [hu]
                omega
              | cons a as => simp
            have hult : u.length < pat.length := by
              rw [hu, List.length_append]
              omega
            have hdropu : pat.drop u.length = k1 := by
              rw [hu, List.drop_left]
            have hstart : startsW (pat.drop u.length) pat = true := by
              rw [hdropu, hKeq]
              exact startsW_refl_append k1 k2x
            rw [s5 _ hult hupos] at hstart
            exact absurd hstart (by simp)
        · rw [replaceAll_neg rep (by simpa using hm)]
          by_contra htrue
          simp only [Bool.not_eq_false, hasSub, Bool.or_eq_true] at htrue
          rcases htrue with hin | hin
          · obtain ⟨p0, p3, hp⟩ : ∃ p0 p3, pat = p0 :: p3 := by
              cases pat with
              | nil => exact absurd rfl hpat
              | cons a b => exact ⟨a, b, rfl⟩
            rw [hp] at hin
            simp only [startsW, Bool.and_eq_true, beq_iff_eq] at hin
            obtain ⟨hp0, hp3⟩ := hin
            rw [← hp] at hp3
            refine absurd ?_ (selft hpat s2 s3 cs [c] p3 (by simpa using hm) hp3)
            rw [hp, hp0]
            rfl
          · rw [ihn cs (by omega)] at hin
            exact absurd hin (by simp)
  intro s
  exact hgen s.length s (Nat.le_refl _)

/-! ### The concrete side conditions, checked over the table -/

/-- Conditions under which a pass over `(pat, rep)` cannot create `K`. -/
def pairOK (K pat rep : List Char) : Prop :=
  hasSub K rep = false ∧ hasSub rep K = false ∧
  (∀ i, i < K.length → 0 < i →
    startsW (K.drop i) rep = true → startsW (K.drop i) pat = true) ∧
  (∀ j, j < K.length → 0 < j →
    endsW (K.take j) rep = true → endsW (K.take j) pat = true)

instance pairOK_dec (K pat rep : List Char) : Decidable (pairOK K pat rep) := by
  unfold pairOK
  infer_instance

/-- Conditions under which a pass removes every occurrence of its own
pattern: the pair conditions against itself, plus unborderedness. -/
def selfOK (pat rep : List Char) : Prop :=
  pairOK pat pat rep ∧
  ∀ i, i < pat.length → 0 < i → startsW (pat.drop i) pat = false

instance selfOK_dec (pat rep : List Char) : Decidable (selfOK pat rep) := by
  unfold selfOK
  infer_instance

/-- Every entry passes its self conditions and the pair conditions against
every later entry. -/
def tableOK : List (List Char × List Char) → Prop
  | [] => True
  | e :: rest =>
    e.1 ≠ [] ∧ selfOK e.1 e.2 ∧ (∀ f ∈ rest, pairOK e.1 f.1 f.2) ∧ tableOK rest

instance tableOK_dec : (t : List (List Char × List Char)) → Decidable (tableOK t)
  | [] => isTrue trivial
  | e :: rest =>
    have := tableOK_dec rest
    by unfold tableOK; infer_instance

theorem tableOK_attributeMap : tableOK attributeMap := by decide

theorem tableOK_nonempty :
    ∀ {tbl : List (List Char × List Char)}, tableOK tbl → ∀ e ∈ tbl, e.1 ≠ [] := by
  intro tbl
  induction tbl with
  | nil =>
    intro _ e he
    simp at he
  | cons e0 rest ih =>
    intro h e he
    rcases List.mem_cons.1 he with rfl | hin
    · exact h.1
    · exact ih h.2.2.2 e hin

/-- Later passes preserve the absence of a key they may not create. -/
theorem applyMap_preserve {K : List Char} (hK : K ≠ []) :
    ∀ (todo : List (List Char × List Char)) (s : List Char),
      (∀ e ∈ todo, e.1 ≠ [] ∧ pairOK K e.1 e.2) →
      hasSub K s = false → hasSub K (applyMap todo s) = false := by
  intro todo
  induction todo with
  | nil => exact fun s _ h => h
  | cons e rest ih =>
    intro s hcond h
    obtain ⟨hne, hp⟩ := hcond e (by simp)
    exact ih _ (fun f hf => hcond f (by simp [hf]))
      (main2 hK hne hp.1 hp.2.1 hp.2.2.1 hp.2.2.2 s h)

/-- After running the whole table, no key of the table occurs. -/
theorem applyMap_clear :
    ∀ (tbl : List (List Char × List Char)) (s : List Char), tableOK tbl →
      ∀ e ∈ tbl, hasSub e.1 (applyMap tbl s) = false := by
  intro tbl
  induction tbl with
  | nil =>
    intro s _ e he
    simp at he
  | cons e0 rest ih =>
    intro s htbl e he
    obtain ⟨hne0, hself, hpairs, hrest⟩ := htbl
    rcases List.mem_cons.1 he with rfl | hin
    · show hasSub e.1 (applyMap rest (replaceAll e.1 e.2 s)) = false
      have hclear : hasSub e.1 (replaceAll e.1 e.2 s) = false :=
        selfm hne0 hself.1.1 hself.1.2.1 hself.1.2.2.1 hself.1.2.2.2 hself.2 s
      exact applyMap_preserve hne0 rest _
        (fun f hf => ⟨tableOK_nonempty hrest f hf, hpairs f hf⟩) hclear
    · exact ih (replaceAll e0.1 e0.2 s) hrest e hin

/-! ### The splice, the wrappers and the trim preserve key absence -/

/-- Structure of the splice: either no match (identity) or exactly one
spliced segment with everything else verbatim. -/
theorem svgTagSplice_struct (s : List Char) :
    svgTagSplice s = s ∨
    ∃ A B C, s = A ++ (svgLit ++ (B ++ '>' :: C)) ∧
      svgTagSplice s = A ++ (spliceHead ++ (B ++ '>' :: C)) := by
  induction s with
  | nil => exact Or.inl rfl
  | cons c cs ih =>
    by_cases hm : startsW svgLit (c :: cs) = true
    · cases hD : (List.drop 4 (c :: cs)).dropWhile (fun x => x != '>') with
      | cons d tail =>
        have hd : d = '>' := by simpa using dropWhile_head_false hD
        subst hd
        obtain ⟨rest, hrest⟩ := (startsW_iff _ _).1 hm
        have hdrop : List.drop 4 (c :: cs) = rest := by
          rw [hrest]
          exact List.drop_left svgLit rest
        have hD' : rest.dropWhile (fun x => x != '>') = '>' :: tail := by
          rw [← hdrop]
          exact hD
        refine Or.inr ⟨[], rest.takeWhile (fun x => x != '>'), tail, ?_, ?_⟩
        · rw [List.nil_append, hrest]
          conv_lhs => rw [show rest = rest.takeWhile (fun x => x != '>') ++ ('>' :: tail) by
            conv_lhs =>
              rw [← List.takeWhile_append_dropWhile (p := fun x => x != '>') (l := rest)]
            rw [hD']]
        · rw [svgTagSplice_pos_cons hm hD, List.nil_append, hdrop]
          simp
      | nil =>
        rw [svgTagSplice_pos_nil hm hD]
        rcases ih with h | ⟨A, B, C, hsplit, himg⟩
        · exact Or.inl (by rw [h])
        · exact Or.inr ⟨c :: A, B, C, by rw [List.cons_append, hsplit],
            by rw [List.cons_append, himg]⟩
    · rw [svgTagSplice_neg (by simpa using hm)]
      rcases ih with h | ⟨A, B, C, hsplit, himg⟩
      · exact Or.inl (by rw [h])
      · exact Or.inr ⟨c :: A, B, C, by rw [List.cons_append, hsplit],
          by rw [List.cons_append, himg]⟩

/-- Boundary conditions between a key and an inserted/wrapping text block. -/
def sideOK (K side : List Char) : Prop :=
  hasSub K side = false ∧ hasSub side K = false ∧
  (∀ i, i < K.length → 0 < i → startsW (K.drop i) side = false) ∧
  (∀ j, j < K.length → 0 < j → endsW (K.take j) side = false)

instance sideOK_dec (K side : List Char) : Decidable (sideOK K side) := by
  unfold sideOK
  infer_instance

theorem splice_preserves {K : List Char} (hK : K ≠ [])
    (hside : sideOK K spliceHead) {s : List Char}
    (h : hasSub K s = false) : hasSub K (svgTagSplice s) = false := by
  rcases svgTagSplice_struct s with heq | ⟨A, B, C, hsplit, himg⟩
  · rw [heq]
    exact h
  · obtain ⟨hs1, hs2, hs3, hs4⟩ := hside
    rw [himg]
    by_contra htrue
    simp only [Bool.not_eq_false] at htrue
    rcases hasSub_append_cases htrue with hin | hin | ⟨k1, k2, hKeq, hk1, hk2, hend, hst⟩
    · rw [hsplit, hasSub_append_left hin] at h
      exact absurd h (by simp)
    · rcases hasSub_append_cases hin with hin2 | hin2 | ⟨k1, k2, hKeq, hk1, hk2, hend, hst⟩
      · rw [hin2] at hs1
        exact absurd hs1 (by simp)
      · rw [hsplit, hasSub_append_right A (hasSub_append_right svgLit hin2)] at h
        exact absurd h (by simp)
      · have htake : K.take k1.length = k1 := by rw [hKeq, List.take_left]
        have hjlt : k1.length < K.length := by
          rw [hKeq, List.length_append]
          cases k2 with
          | nil => exact absurd rfl hk2
          | cons a as => simp
        have hjpos : 0 < k1.length := by
          cases k1 with
          | nil => exact absurd rfl hk1
          | cons a as => simp
        have := hs4 k1.length hjlt hjpos
        rw [htake, hend] at this
        exact absurd this (by simp)
    · rcases startsW_append_split hst with ⟨hpre, -⟩ | ⟨k3, hk3, hst3⟩
      · have hdropK : K.drop k1.length = k2 := by rw [hKeq, List.drop_left]
        have hilt : k1.length < K.length := by
          rw [hKeq, List.length_append]
          cases k2 with
          | nil => exact absurd rfl hk2
          | cons a as => simp
        have hipos : 0 < k1.length := by
          cases k1 with
          | nil => exact absurd rfl hk1
          | cons a as => simp
        have := hs3 k1.length hilt hipos
        rw [hdropK, hpre] at this
        exact absurd this (by simp)
      · have : hasSub spliceHead K = true := by
          rw [hKeq, hk3]
          exact (hasSub_iff _ _).2 ⟨k1, k3, by simp⟩
        rw [this] at hs2
        exact absurd hs2 (by simp)

theorem wrap_preserves {K pre post mid : List Char} (hK : K ≠ [])
    (hpre : hasSub K pre = false)
    (hpreEnd : ∀ j, j < K.length → 0 < j → endsW (K.take j) pre = false)
    (hpost : hasSub K post = false)
    (hpostStart : ∀ i, i < K.length → 0 < i → startsW (K.drop i) post = false)
    (hmid : hasSub K mid = false) :
    hasSub K (pre ++ mid ++ post) = false := by
  by_contra htrue
  simp only [Bool.not_eq_false] at htrue
  rw [List.append_assoc] at htrue
  rcases hasSub_append_cases htrue with hin | hin | ⟨k1, k2, hKeq, hk1, hk2, hend, hst⟩
  · rw [hin] at hpre
    exact absurd hpre (by simp)
  · rcases hasSub_append_cases hin with hin2 | hin2 | ⟨k1, k2, hKeq, hk1, hk2, hend, hst⟩
    · rw [hin2] at hmid
      exact absurd hmid (by simp)
    · rw [hin2] at hpost
      exact absurd hpost (by simp)
    · have hdropK : K.drop k1.length = k2 := by rw [hKeq, List.drop_left]
      have hilt : k1.length < K.length := by
        rw [hKeq, List.length_append]
        cases k2 with
        | nil => exact absurd rfl hk2
        | cons a as => simp
      have hipos : 0 < k1.length := by
        cases k1 with
        | nil => exact absurd rfl hk1
        | cons a as => simp
      have := hpostStart k1.length hilt hipos
      rw [hdropK, hst] at this
      exact absurd this (by simp)
  · have htake : K.take k1.length = k1 := by rw [hKeq, List.take_left]
    have hjlt : k1.length < K.length := by
      rw [hKeq, List.length_append]
      cases k2 with
      | nil => exact absurd rfl hk2
      | cons a as => simp
    have hjpos : 0 < k1.length := by
      cases k1 with
      | nil => exact absurd rfl hk1
      | cons a as => simp
    have := hpreEnd k1.length hjlt hjpos
    rw [htake, hend] at this
    exact absurd this (by simp)

theorem jsTrim_preserves {K s : List Char}
    (h : hasSub K s = false) : hasSub K (jsTrim s) = false := by
  by_contra htrue
  simp only [Bool.not_eq_false] at htrue
  have hstage1 : s = s.takeWhile isJsSpace ++ s.dropWhile isJsSpace :=
    (List.takeWhile_append_dropWhile (p := isJsSpace) (l := s)).symm
  have hstage2 : s.dropWhile isJsSpace =
      jsTrim s ++ ((s.dropWhile isJsSpace).reverse.takeWhile isJsSpace).reverse := by
    unfold jsTrim
    conv_lhs => rw [← List.reverse_reverse (s.dropWhile isJsSpace)]
    conv_lhs =>
      rw [show (s.dropWhile isJsSpace).reverse =
        (s.dropWhile isJsSpace).reverse.takeWhile isJsSpace ++
          (s.dropWhile isJsSpace).reverse.dropWhile isJsSpace from
        (List.takeWhile_append_dropWhile (p := isJsSpace)
          (l := (s.dropWhile isJsSpace).reverse)).symm]
    rw [List.reverse_append]
  have : hasSub K s = true := by
    rw [hstage1, hstage2]
    exact hasSub_append_right _ (hasSub_append_left htrue)
  rw [this] at h
  exact absurd h (by simp)

/-- Every key passes the boundary checks against the splice insert and all
four component-template wrapper pieces. -/
theorem attributeMap_sides :
    ∀ e ∈ attributeMap, sideOK e.1 spliceHead ∧ sideOK e.1 jsxPre ∧
      sideOK e.1 jsxPost ∧ sideOK e.1 tsxPre ∧ sideOK e.1 tsxPost := by
  decide

/-! ### C5 -/

/-- C5: for every input string, the jsx and tsx outputs contain no occurrence
of any hyphenated attribute name from the rename table's left-hand side: the
passes remove every occurrence and, being applied in table order with
camelCase replacements, can never recreate an earlier key; the tag splice,
the trim and the wrapper templates preserve that absence. -/
theorem C5_no_hyphenated_key_survives (s : List Char) :
    ∀ e ∈ attributeMap,
      hasSub e.1 (getTransformedCode s FormatType.jsx) = false ∧
      hasSub e.1 (getTransformedCode s FormatType.tsx) = false := by
  intro e he
  have hK : e.1 ≠ [] := tableOK_nonempty tableOK_attributeMap e he
  obtain ⟨hsplice, hjpre, hjpost, htpre, htpost⟩ := attributeMap_sides e he
  have hclear : hasSub e.1 (applyMap attributeMap (removeXmlDecl s)) = false :=
    applyMap_clear attributeMap (removeXmlDecl s) tableOK_attributeMap e he
  have hconv : hasSub e.1 (convertToReactProps s) = false :=
    jsTrim_preserves (splice_preserves hK hsplice hclear)
  by_cases hs : s = []
  · subst hs
    rw [show getTransformedCode [] FormatType.jsx = [] from rfl,
      show getTransformedCode [] FormatType.tsx = [] from rfl]
    exact ⟨hasSub_nil_of_ne hK, hasSub_nil_of_ne hK⟩
  · constructor
    · show hasSub e.1 (getTransformedCode s FormatType.jsx) = false
      unfold getTransformedCode
      simp only [hs, if_false]
      exact wrap_preserves hK hjpre.1 hjpre.2.2.2 hjpost.1 hjpost.2.2.1 hconv
    · show hasSub e.1 (getTransformedCode s FormatType.tsx) = false
      unfold getTransformedCode
      simp only [hs, if_false]
      exact wrap_preserves hK htpre.1 htpre.2.2.2 htpost.1 htpost.2.2.1 hconv

theorem C5_no_hyphenated_key_survives_witness :
    hasSub (("stroke-width").toList)
      (getTransformedCode (("<svg stroke-width=\"2\" fill-rule=\"evenodd\"/>").toList)
        FormatType.jsx) = false ∧
    hasSub (("stroke-width").toList)
      (getTransformedCode (("<svg stroke-width=\"2\" fill-rule=\"evenodd\"/>").toList)
        FormatType.tsx) = false :=
  C5_no_hyphenated_key_survives
    (("<svg stroke-width=\"2\" fill-rule=\"evenodd\"/>").toList)
    (("stroke-width").toList, ("strokeWidth").toList) (by decide)

end Svg2Code
